import Mathlib

/-!
Verification of the tabular reshaping and fuzzy-matching core of the
`ds_utils` repository, via a shallow embedding of the relevant functions of
`ds_utils/dataframe_operations.py` and `fuzzy_match.py` over lists.

A table cell is `Option String`: `none` is the explicit missing marker
(`None`/`np.nan`).  A raw table is a list of rows; row and column labels are
the default positional `RangeIndex` `0, 1, 2, ...`.  Python exceptions are
modelled by an error type returned through `Except`.
-/

namespace DsUtils

/-- A cell of a table: a scalar value or the explicit missing marker. -/
abbrev Cell := Option String

/-- The Python exception classes raised by the embedded code, either
explicitly by the source or by the pandas operations it calls.
`nameError` stands for `UnboundLocalError` (a subclass of `NameError`). -/
inductive PyErr where
  | valueError
  | typeError
  | keyError
  | indexError
  | nameError
  | notImplementedError
deriving DecidableEq, Repr

/-- The `axis` parameter restricted to its two meaningful families of
values: `0`/`'index'` versus `1`/`'columns'` (any other token raises
`ValueError` in the source; the embedding uses the two-valued enumeration). -/
inductive Axis where
  | index
  | columns
deriving DecidableEq, Repr

/-- A raw table: a list of rows, each row a list of cells. -/
abbrev Table := List (List Cell)

/-- The table is rectangular with row width `w` (every pandas DataFrame is;
ragged lists of lists do not arise as images of real frames). -/
def Rect (t : Table) (w : Nat) : Prop := ∀ r ∈ t, r.length = w

instance (t : Table) (w : Nat) : Decidable (Rect t w) := by
  unfold Rect; infer_instance

/-- Column `j` of a table, as read by `df.loc[:, j]` / `df.iloc[:, j]` on a
rectangular frame. -/
def colGet (t : Table) (j : Nat) : List Cell := t.map (fun r => r.getD j none)

/-- Model of `Series.ffill` starting from a carried last-seen value: each missing
entry takes the nearest preceding non-missing value; with carry `none`, a
leading run of missing entries stays missing. -/
def ffillFrom (carry : Option α) : List (Option α) → List (Option α)
  | [] => []
  | x :: xs => (x.or carry) :: ffillFrom (x.or carry) xs

/-- Model of `Series.ffill`: plain forward fill of one row or column. -/
def ffill (l : List (Option α)) : List (Option α) := ffillFrom none l

theorem ffillFrom_length (carry : Option α) (l : List (Option α)) :
    (ffillFrom carry l).length = l.length := by
  induction l generalizing carry with
  | nil => rfl
  | cons x xs ih => simp [ffillFrom, ih]

theorem ffill_length (l : List (Option α)) : (ffill l).length = l.length :=
  ffillFrom_length none l

theorem ffillFrom_idem (carry : Option α) (l : List (Option α)) :
    ffillFrom carry (ffillFrom carry l) = ffillFrom carry l := by
  induction l generalizing carry with
  | nil => rfl
  | cons x xs ih =>
    simp only [ffillFrom]
    have h : (x.or carry).or carry = x.or carry := by
      cases x <;> cases carry <;> rfl
    rw [h, ih]

/-- Forward fill is idempotent. -/
theorem ffill_idem (l : List (Option α)) : ffill (ffill l) = ffill l :=
  ffillFrom_idem none l

/-! ## Header Detector: `identify_first_numeric`
(`ds_utils/dataframe_operations.py`, lines 117-178)

The check applied to one line (row or column) is
`column.astype(str).str[0].str.isnumeric().any()`: a missing cell renders
as the string `"nan"`, whose first character is not a digit, so missing
cells never qualify; a present cell qualifies iff the first character of
its string form is a digit. -/

/-- Model of `astype(str).str[0].str.isnumeric()` on a single cell. -/
def numericLooking : Cell → Bool
  | none => false
  | some s =>
    match s.toList with
    | [] => false
    | c :: _ => c.isDigit

/-- Model of `Series.idxmax` on a boolean series with missing entries, with
positional labels: the label of the first `True`; if there is no `True`,
the label of the first non-missing entry; pandas raises `ValueError` on an
all-missing or empty series. -/
def idxmax (l : List (Option Bool)) : Except PyErr Nat :=
  match l.findIdx? (fun x => x == some true) with
  | some i => .ok i
  | none =>
    match l.findIdx? (fun x => x.isSome) with
    | some i => .ok i
    | none => .error .valueError

/-- The lines `df.apply(f, axis=axis)` iterates over: with `axis=0`/`'index'`
the function is applied to each column, with `axis=1`/`'columns'` to each
row.  (Restricted to nonempty rectangular tables, whose width is the length
of the first row.) -/
def applyLines (t : Table) : Axis → List (List Cell)
  | .index => (List.range (t.headD []).length).map (colGet t)
  | .columns => t

/-- The series produced by the source's `df.apply(lambda x: ... if ... else
None, axis=axis)`: entry `m` is `None` when positional label `m` is
excluded, else whether line `m` contains a numeric-looking value. -/
def excludeSeries (lines : List (List Cell)) (exclude : List Nat) :
    List (Option Bool) :=
  lines.enum.map (fun p => if p.1 ∈ exclude then none else some (p.2.any numericLooking))

/-- Model of `identify_first_numeric(df, axis, exclude)`: `idxmax` of the series of
per-line checks, with excluded labels contributing `None`.  `exclude = []`
models `exclude=None`; a singleton models the `int`/`str` cases and a
longer list the `list` case of the source. -/
def identify_first_numeric (t : Table) (axis : Axis) (exclude : List Nat) :
    Except PyErr Nat :=
  idxmax (excludeSeries (applyLines t axis) exclude)

theorem excludeSeries_length (lines : List (List Cell)) (exclude : List Nat) :
    (excludeSeries lines exclude).length = lines.length := by
  simp [excludeSeries, List.enum_length]

theorem excludeSeries_getD (lines : List (List Cell)) (exclude : List Nat)
    (m : Nat) (hm : m < lines.length) :
    (excludeSeries lines exclude).getD m none =
      if m ∈ exclude then none else some ((lines.getD m []).any numericLooking) := by
  have hm2 : m < (excludeSeries lines exclude).length := by
    rw [excludeSeries_length]; exact hm
  rw [List.getD_eq_getElem?_getD, List.getElem?_eq_getElem hm2]
  unfold excludeSeries
  rw [List.getElem_map]
  rw [List.getElem_enum]
  rw [List.getD_eq_getElem?_getD, List.getElem?_eq_getElem hm]
  simp

theorem findIdx?_none_of_all {p : α → Bool} :
    ∀ (l : List α), (∀ x ∈ l, p x = false) → l.findIdx? p = none := by
  intro l
  induction l with
  | nil => intro _; rfl
  | cons a as ih =>
    intro h
    have ha : p a = false := h a (by simp)
    have has : as.findIdx? p = none := ih (fun x hx => h x (by simp [hx]))
    simp [List.findIdx?_cons, ha, has]

theorem findIdx?_first {p : α → Bool} (d : α) :
    ∀ (l : List α) (n : Nat), l.findIdx? p = some n →
      n < l.length ∧ p (l.getD n d) = true ∧ ∀ m, m < n → p (l.getD m d) = false := by
  intro l
  induction l with
  | nil => intro n h; simp [List.findIdx?] at h
  | cons a as ih =>
    intro n h
    rw [List.findIdx?_cons] at h
    by_cases ha : p a
    · simp [ha] at h
      subst h
      exact ⟨by simp, by simpa using ha, fun m hm => absurd hm (by omega)⟩
    · simp [ha] at h
      obtain ⟨k, hk, rfl⟩ := h
      obtain ⟨hlen, hp, hbefore⟩ := ih k hk
      refine ⟨by simpa using Nat.succ_lt_succ hlen, by simpa using hp, ?_⟩
      intro m hm
      cases m with
      | zero => simpa using ha
      | succ m2 => simpa using hbefore m2 (by omega)

theorem findIdx?_isSome_of_exists {p : α → Bool} :
    ∀ (l : List α), (∃ x ∈ l, p x) → ∃ n, l.findIdx? p = some n := by
  intro l
  induction l with
  | nil => rintro ⟨x, hx, -⟩; cases hx
  | cons a as ih =>
    rintro ⟨x, hx, hp⟩
    by_cases ha : p a
    · exact ⟨0, by simp [List.findIdx?_cons, ha]⟩
    · rcases List.mem_cons.mp hx with rfl | hx2
      · exact absurd hp (by simp [ha])
      · obtain ⟨n, hn⟩ := ih ⟨x, hx2, hp⟩
        exact ⟨n + 1, by simp [List.findIdx?_cons, ha, hn]⟩

theorem idxmax_true (l : List (Option Bool)) (hex : ∃ x ∈ l, x = some true) :
    ∃ n, idxmax l = .ok n ∧ n < l.length ∧ l.getD n none = some true ∧
      ∀ m, m < n → l.getD m none ≠ some true := by
  obtain ⟨x, hx, he⟩ := hex
  obtain ⟨n, hn⟩ :=
    findIdx?_isSome_of_exists (p := fun x => x == some true) l ⟨x, hx, by simp [he]⟩
  obtain ⟨hlen, hp, hb⟩ := findIdx?_first none l n hn
  refine ⟨n, by simp [idxmax, hn], hlen, by simpa using hp, ?_⟩
  intro m hm
  simpa using hb m hm

theorem idxmax_no_true (l : List (Option Bool)) (hno : ∀ x ∈ l, x ≠ some true)
    (hex : ∃ x ∈ l, x.isSome) :
    ∃ n, idxmax l = .ok n ∧ n < l.length ∧ (l.getD n none).isSome ∧
      ∀ m, m < n → l.getD m none = none := by
  have h1 : l.findIdx? (fun x => x == some true) = none :=
    findIdx?_none_of_all l (fun x hx => by simpa using hno x hx)
  obtain ⟨n, hn⟩ := findIdx?_isSome_of_exists (p := fun x => x.isSome) l hex
  obtain ⟨hlen, hp, hb⟩ := findIdx?_first none l n hn
  refine ⟨n, by simp [idxmax, h1, hn], hlen, hp, ?_⟩
  intro m hm
  have h2 := hb m hm
  cases hgd : l.getD m none with
  | none => rfl
  | some b => rw [hgd] at h2; simp at h2

/-- Claim C7 (confirmed): `identify_first_numeric` returns the ordinal of
the first line scanned along the chosen axis (per pandas `apply` semantics,
`axis=1`/`'columns'` iterates over the rows) that has at least one cell
whose string form starts with a digit; missing cells render as `"nan"` and
never qualify.  In particular, on `[[NaN, "abc"], [NaN, "3"]]` with
`axis='columns'` and no exclusion the result is ordinal 1 — the line
holding `"3"` — never the ordinal of the line holding only `"abc"`. -/
theorem identify_first_numeric_contract (t : Table) (axis : Axis)
    (h : ∃ l ∈ applyLines t axis, l.any numericLooking) :
    (∃ n, identify_first_numeric t axis [] = .ok n ∧
        n < (applyLines t axis).length ∧
        ((applyLines t axis).getD n []).any numericLooking = true ∧
        ∀ m, m < n → ((applyLines t axis).getD m []).any numericLooking = false) ∧
    identify_first_numeric [[none, some "abc"], [none, some "3"]] Axis.columns []
      = .ok 1 := by
  constructor
  · obtain ⟨ln, hmem, hq⟩ := h
    obtain ⟨i, hi, hig⟩ := List.mem_iff_getElem.mp hmem
    have hser : ∀ m, m < (applyLines t axis).length →
        (excludeSeries (applyLines t axis) []).getD m none =
          some (((applyLines t axis).getD m []).any numericLooking) := by
      intro m hm
      simpa using excludeSeries_getD (applyLines t axis) [] m hm
    have hexi : ∃ x ∈ excludeSeries (applyLines t axis) [], x = some true := by
      refine ⟨(excludeSeries (applyLines t axis) []).getD i none, ?_, ?_⟩
      · rw [List.getD_eq_getElem?_getD,
          List.getElem?_eq_getElem (by rw [excludeSeries_length]; exact hi)]
        exact List.getElem_mem _
      · rw [hser i hi]
        have : (applyLines t axis).getD i [] = ln := by
          rw [List.getD_eq_getElem?_getD, List.getElem?_eq_getElem hi, hig]; rfl
        rw [this, hq]
    obtain ⟨n, hok, hlen, htrue, hbef⟩ :=
      idxmax_true (excludeSeries (applyLines t axis) []) hexi
    rw [excludeSeries_length] at hlen
    refine ⟨n, ?_, hlen, ?_, ?_⟩
    · simpa [identify_first_numeric] using hok
    · have := hser n hlen
      rw [this] at htrue
      simpa using htrue
    · intro m hm
      have hne := hbef m hm
      rw [hser m (by omega)] at hne
      by_contra hcon
      simp only [Bool.not_eq_false] at hcon
      exact hne (by rw [hcon])
  · rfl

/-- Witness for C7 at a concrete input. -/
theorem identify_first_numeric_contract_witness :
    ∃ n, identify_first_numeric [[none, some "3x"]] Axis.columns [] = .ok n ∧
      n < (applyLines [[none, some "3x"]] Axis.columns).length ∧
      ((applyLines [[none, some "3x"]] Axis.columns).getD n []).any numericLooking
        = true ∧
      ∀ m, m < n →
        ((applyLines [[none, some "3x"]] Axis.columns).getD m []).any numericLooking
          = false :=
  (identify_first_numeric_contract [[none, some "3x"]] Axis.columns (by decide)).1

/-- Claim C4 counterexample: the table `[["a"]]` has no numeric-looking
value on any line, yet `identify_first_numeric` returns ordinal 0 instead
of failing: `Series.idxmax` on an all-`False` series returns the first
label, and no `NotFoundError` class exists anywhere in the repository. -/
theorem identify_first_numeric_no_numeric_counterexample :
    identify_first_numeric [[some "a"]] Axis.columns [] = .ok 0 ∧
    ∀ l ∈ applyLines [[some "a"]] Axis.columns, l.any numericLooking = false := by
  constructor
  · rfl
  · decide

/-- Claim C4 (amended): when no non-excluded line contains a numeric-looking
value but at least one non-excluded line exists, `identify_first_numeric`
does not fail — it returns the ordinal of the first non-excluded line (the
first label of the all-`False` series, skipping the `None` entries of the
excluded labels). -/
theorem identify_first_numeric_no_numeric_amended (t : Table) (axis : Axis)
    (exclude : List Nat)
    (hnone : ∀ m, m < (applyLines t axis).length → m ∉ exclude →
      ((applyLines t axis).getD m []).any numericLooking = false)
    (hex : ∃ m, m < (applyLines t axis).length ∧ m ∉ exclude) :
    ∃ n, identify_first_numeric t axis exclude = .ok n ∧
      n < (applyLines t axis).length ∧ n ∉ exclude ∧ ∀ m, m < n → m ∈ exclude := by
  obtain ⟨m0, hm0, hm0x⟩ := hex
  have hser := excludeSeries_getD (applyLines t axis) exclude
  have hno : ∀ x ∈ excludeSeries (applyLines t axis) exclude, x ≠ some true := by
    intro x hx
    obtain ⟨i, hi, hig⟩ := List.mem_iff_getElem.mp hx
    have hi2 : i < (applyLines t axis).length := by
      rw [excludeSeries_length] at hi; exact hi
    have : x = (excludeSeries (applyLines t axis) exclude).getD i none := by
      rw [List.getD_eq_getElem?_getD, List.getElem?_eq_getElem hi, hig]; rfl
    rw [this, hser i hi2]
    by_cases hie : i ∈ exclude
    · simp [hie]
    · simp only [hie, if_false]
      rw [hnone i hi2 hie]
      simp
  have hexi : ∃ x ∈ excludeSeries (applyLines t axis) exclude, x.isSome := by
    refine ⟨(excludeSeries (applyLines t axis) exclude).getD m0 none, ?_, ?_⟩
    · rw [List.getD_eq_getElem?_getD,
        List.getElem?_eq_getElem (by rw [excludeSeries_length]; exact hm0)]
      exact List.getElem_mem _
    · rw [hser m0 hm0]
      simp [hm0x]
  obtain ⟨n, hok, hlen, hsome, hbef⟩ :=
    idxmax_no_true (excludeSeries (applyLines t axis) exclude) hno hexi
  rw [excludeSeries_length] at hlen
  refine ⟨n, by simpa [identify_first_numeric] using hok, hlen, ?_, ?_⟩
  · intro hne
    rw [hser n hlen] at hsome
    simp [hne] at hsome
  · intro m hm
    have := hbef m hm
    rw [hser m (by omega)] at this
    by_contra hme
    simp [hme] at this

/-- Witness for the amended C4 at a concrete input: a table with no
numeric-looking value anywhere and label 0 excluded. -/
theorem identify_first_numeric_no_numeric_amended_witness :
    ∃ n, identify_first_numeric [[some "a"], [some "b"]] Axis.columns [0] = .ok n ∧
      n < (applyLines [[some "a"], [some "b"]] Axis.columns).length ∧
      n ∉ [0] ∧ ∀ m, m < n → m ∈ [0] :=
  identify_first_numeric_no_numeric_amended [[some "a"], [some "b"]] Axis.columns [0]
    (by decide) ⟨1, by decide, by decide⟩

/-! ## Header Filler: `forward_fill_headers`
(`ds_utils/dataframe_operations.py`, lines 349-419)

Level 0 (the row/column at the minimal positional label, which is 0 here)
is forward-filled plainly.  Each later level `i` is assigned from
`df.loc[:, df.loc[i-1].notna()].T.groupby(i-1, sort=False)[[i]].ffill()[i]`
(axis=0; the axis=1 branch is the row/column mirror image): the positions
whose level-`i-1` (parent) cell is missing are dropped before grouping, the
remaining positions are grouped by their parent value and level `i` is
forward-filled within each group, and the aligned assignment
`df.loc[i] = ...` leaves every dropped position missing. -/

/-- Association lookup for the per-group fill state: the child value
recorded for parent value `k`, if any. -/
def pyLookup (k : String) (st : List (String × String)) : Option String :=
  (st.find? (fun p => p.1 == k)).map (fun p => p.2)

/-- The grouped forward fill over (parent, child) pairs:
`groupby(parent, sort=False).ffill()` on the positions with a present
parent, re-aligned to all positions.  A missing entry of a group takes the
most recent preceding non-missing child value of the same group, modelled
by one pass carrying, per parent value, the last non-missing child seen;
positions with a missing parent are not part of the grouped frame and come
back missing after alignment. -/
def groupFfillFrom (st : List (String × String)) :
    List (Cell × Cell) → List Cell
  | [] => []
  | (p, c) :: rest =>
    match p with
    | none => none :: groupFfillFrom st rest
    | some k =>
      match c with
      | some v => some v :: groupFfillFrom ((k, v) :: st) rest
      | none => pyLookup k st :: groupFfillFrom st rest

/-- One grouped fill of level `i` (`child`) under level `i-1` (`parent`). -/
def fillLevel (parent child : List Cell) : List Cell :=
  groupFfillFrom [] (parent.zip child)

/-- The non-missing child values at positions whose parent value is `k`,
in positional order. -/
def groupVals (k : String) (l : List (Cell × Cell)) : List String :=
  l.filterMap (fun pc => if pc.1 = some k then pc.2 else none)

/-- The fill rule in the specification's words: a position whose parent is
missing is excluded from the fill entirely and ends missing; a position
with parent value `k` holds the nearest preceding (or own) non-missing
child value among the positions sharing parent value `k`. -/
def fillLevelSpec (parent child : List Cell) : List Cell :=
  (List.range child.length).map (fun j =>
    match parent.getD j none with
    | none => none
    | some k => (groupVals k ((parent.zip child).take (j + 1))).getLast?)

theorem groupFfillFrom_length (st : List (String × String))
    (l : List (Cell × Cell)) : (groupFfillFrom st l).length = l.length := by
  induction l generalizing st with
  | nil => rfl
  | cons x rest ih =>
    obtain ⟨p, c⟩ := x
    cases p with
    | none => simp [groupFfillFrom, ih]
    | some k =>
      cases c with
      | none => simp [groupFfillFrom, ih]
      | some v => simp [groupFfillFrom, ih]

theorem groupVals_append (k : String) (l l2 : List (Cell × Cell)) :
    groupVals k (l ++ l2) = groupVals k l ++ groupVals k l2 := by
  simp [groupVals, List.filterMap_append]

theorem groupFfillFrom_getD (l : List (Cell × Cell)) :
    ∀ (st : List (String × String)) (pre : List (Cell × Cell)),
      (∀ k, pyLookup k st = (groupVals k pre).getLast?) →
      ∀ j, j < l.length →
        (groupFfillFrom st l).getD j none =
          (match (l.getD j (none, none)).1 with
           | none => none
           | some k => (groupVals k (pre ++ l.take (j + 1))).getLast?) := by
  induction l with
  | nil =>
    intro st pre _ j hj
    exact absurd hj (by simp)
  | cons x rest ih =>
    intro st pre hinv j hj
    obtain ⟨p, c⟩ := x
    cases j with
    | zero =>
      cases p with
      | none => simp [groupFfillFrom]
      | some k =>
        cases c with
        | some v =>
          simp only [groupFfillFrom, List.getD_cons_zero, List.take,
            groupVals_append]
          have h1 : groupVals k [(some k, some v)] = [v] := by
            simp [groupVals]
          rw [h1, List.getLast?_append]
          rfl
        | none =>
          simp only [groupFfillFrom, List.getD_cons_zero, List.take,
            groupVals_append]
          have h1 : groupVals k [(some k, none)] = [] := by
            simp [groupVals]
          rw [h1, List.append_nil]
          exact hinv k
    | succ j2 =>
      have hj2 : j2 < rest.length := by simpa using hj
      have hpre : pre ++ (p, c) :: rest.take (j2 + 1)
          = (pre ++ [(p, c)]) ++ rest.take (j2 + 1) := by
        simp
      have htake : ((p, c) :: rest).take (j2 + 1 + 1) = (p, c) :: rest.take (j2 + 1) := rfl
      cases p with
      | none =>
        have hinv2 : ∀ k2,
            pyLookup k2 st = (groupVals k2 (pre ++ [((none : Cell), c)])).getLast? := by
          intro k2
          rw [groupVals_append]
          have h0 : groupVals k2 [((none : Cell), c)] = [] := by simp [groupVals]
          rw [h0, List.append_nil]
          exact hinv k2
        have hmain := ih st (pre ++ [((none : Cell), c)]) hinv2 j2 hj2
        show (none :: groupFfillFrom st rest).getD (j2 + 1) none = _
        rw [List.getD_cons_succ, List.getD_cons_succ, htake, hpre]
        exact hmain
      | some k =>
        cases c with
        | some v =>
          have hinv2 : ∀ k2, pyLookup k2 ((k, v) :: st)
              = (groupVals k2 (pre ++ [(some k, some v)])).getLast? := by
            intro k2
            rw [groupVals_append]
            by_cases hk : k = k2
            · subst hk
              have h0 : groupVals k [(some k, some v)] = [v] := by simp [groupVals]
              rw [h0, List.getLast?_append]
              simp [pyLookup, List.find?]
            · have h0 : groupVals k2 [(some k, some v)] = [] := by
                simp [groupVals, hk]
              rw [h0, List.append_nil]
              have h1 : pyLookup k2 ((k, v) :: st) = pyLookup k2 st := by
                have hb : (k == k2) = false := by simp [hk]
                simp [pyLookup, List.find?, hb]
              rw [h1]
              exact hinv k2
          have hmain := ih ((k, v) :: st) (pre ++ [(some k, some v)]) hinv2 j2 hj2
          show (some v :: groupFfillFrom ((k, v) :: st) rest).getD (j2 + 1) none = _
          rw [List.getD_cons_succ, List.getD_cons_succ, htake, hpre]
          exact hmain
        | none =>
          have hinv2 : ∀ k2,
              pyLookup k2 st = (groupVals k2 (pre ++ [(some k, none)])).getLast? := by
            intro k2
            rw [groupVals_append]
            have h0 : groupVals k2 [(some k, (none : Cell))] = [] := by
              by_cases hk : k = k2 <;> simp [groupVals, hk]
            rw [h0, List.append_nil]
            exact hinv k2
          have hmain := ih st (pre ++ [(some k, none)]) hinv2 j2 hj2
          show (pyLookup k st :: groupFfillFrom st rest).getD (j2 + 1) none = _
          rw [List.getD_cons_succ, List.getD_cons_succ, htake, hpre]
          exact hmain

/-- Equivalence: `fillLevel` computes exactly the specification's group-bounded fill
rule. -/
theorem fillLevel_eq_spec (parent child : List Cell)
    (hlen : parent.length = child.length) :
    fillLevel parent child = fillLevelSpec parent child := by
  have hzlen : (parent.zip child).length = child.length := by
    simp [List.length_zip, hlen]
  have hlenL : (fillLevel parent child).length = child.length := by
    simp [fillLevel, groupFfillFrom_length, hzlen]
  have hlenR : (fillLevelSpec parent child).length = child.length := by
    simp [fillLevelSpec]
  apply List.ext_getElem (by rw [hlenL, hlenR])
  intro j h1 h2
  have hj : j < child.length := by rw [hlenL] at h1; exact h1
  have hjz : j < (parent.zip child).length := by rw [hzlen]; exact hj
  have hL : (fillLevel parent child)[j] = (fillLevel parent child).getD j none := by
    rw [List.getD_eq_getElem?_getD, List.getElem?_eq_getElem h1]; rfl
  rw [hL]
  have hmain := groupFfillFrom_getD (parent.zip child) [] []
    (fun k => rfl) j hjz
  rw [fillLevel, hmain]
  have hR : (fillLevelSpec parent child)[j]
      = (match parent.getD j none with
         | none => none
         | some k => (groupVals k ((parent.zip child).take (j + 1))).getLast?) := by
    unfold fillLevelSpec
    rw [List.getElem_map, List.getElem_range]
  rw [hR]
  have hjp : j < parent.length := by rw [hlen]; exact hj
  have hsc : ((parent.zip child).getD j (none, none)).1 = parent.getD j none := by
    rw [List.getD_eq_getElem?_getD, List.getElem?_eq_getElem hjz, List.getElem_zip,
      List.getD_eq_getElem?_getD, List.getElem?_eq_getElem hjp]
    rfl
  rw [hsc]
  simp

theorem fillLevel_length (parent child : List Cell) :
    (fillLevel parent child).length = min parent.length child.length := by
  simp [fillLevel, groupFfillFrom_length, List.length_zip]

/-- One level-fill step for axis=0/'index': `df.loc[i] = ...`.  A label `i`
outside the positional index makes the source raise `KeyError` (reading
`df.loc[i-1]` / selecting `[[i]]` from the transposed frame). -/
def ffillRowStep (t : Table) (i : Nat) : Except PyErr Table :=
  if i < t.length then
    .ok (t.set i (fillLevel (t.getD (i - 1) []) (t.getD i [])))
  else .error .keyError

/-- Model of `forward_fill_headers(df, header_count, axis=0)`.  Positional labels
start at 0, so the source's `df.index.min()` is 0; on an empty frame
`df.index.min()` is `NaN` and `df.loc[NaN]` raises `KeyError`.
`header_count = 0` stands for every non-positive count (`ValueError`). -/
def forward_fill_headers_rows (t : Table) (header_count : Nat) :
    Except PyErr Table :=
  if header_count = 0 then .error .valueError
  else if t.isEmpty then .error .keyError
  else
    (List.range' 1 (header_count - 1)).foldlM ffillRowStep
      (t.set 0 (ffill (t.getD 0 [])))

/-- Columnwise assignment `df.loc[:, j] = vals` on a rectangular frame. -/
def setCol (t : Table) (j : Nat) (vals : List Cell) : Table :=
  List.zipWith (fun r v => r.set j v) t vals

/-- One level-fill step for axis=1/'columns': `df.loc[:, i] = ...`. -/
def ffillColStep (t : Table) (i : Nat) : Except PyErr Table :=
  if i < (t.headD []).length then
    .ok (setCol t i (fillLevel (colGet t (i - 1)) (colGet t i)))
  else .error .keyError

/-- Model of `forward_fill_headers(df, header_count, axis=1)`. -/
def forward_fill_headers_cols (t : Table) (header_count : Nat) :
    Except PyErr Table :=
  if header_count = 0 then .error .valueError
  else if (t.headD []).isEmpty then .error .keyError
  else
    (List.range' 1 (header_count - 1)).foldlM ffillColStep
      (setCol t 0 (ffill (colGet t 0)))

/-- Model of `forward_fill_headers`: dispatch on the axis.  The `inplace` flag of
the source only chooses between mutating the caller's frame and returning
a fresh one; the computed table is identical, so the embedding is the pure
version. -/
def forward_fill_headers (t : Table) (header_count : Nat) (axis : Axis) :
    Except PyErr Table :=
  match axis with
  | .index => forward_fill_headers_rows t header_count
  | .columns => forward_fill_headers_cols t header_count

/-- Header line `i` along an axis: row `i` for axis=0/'index', column `i`
for axis=1/'columns'. -/
def lineGet (axis : Axis) (t : Table) (i : Nat) : List Cell :=
  match axis with
  | .index => t.getD i []
  | .columns => colGet t i

theorem except_bind_ok {α β : Type} {e : Except PyErr α} {f : α → Except PyErr β}
    {b : β} (h : (e >>= f) = .ok b) : ∃ a, e = .ok a ∧ f a = .ok b := by
  cases e with
  | error err => exact absurd h (by simp [Bind.bind, Except.bind])
  | ok a => exact ⟨a, rfl, by simpa [Bind.bind, Except.bind] using h⟩

theorem getD_set_self (t : Table) (i : Nat) (v : List Cell) (h : i < t.length) :
    (t.set i v).getD i [] = v := by
  rw [List.getD_eq_getElem?_getD,
    List.getElem?_eq_getElem (by rw [List.length_set]; exact h)]
  rw [List.getElem_set_self]
  rfl

theorem getD_set_ne (t : Table) (i j : Nat) (v : List Cell) (hne : i ≠ j) :
    (t.set i v).getD j [] = t.getD j [] := by
  rw [List.getD_eq_getElem?_getD, List.getD_eq_getElem?_getD,
    List.getElem?_set_ne hne]

theorem rect_getD (t : Table) (w j : Nat) (hrect : Rect t w) (hj : j < t.length) :
    (t.getD j []).length = w := by
  rw [List.getD_eq_getElem?_getD, List.getElem?_eq_getElem hj]
  exact hrect _ (List.getElem_mem _)

theorem rect_set (t : Table) (w i : Nat) (v : List Cell) (hrect : Rect t w)
    (hv : v.length = w) : Rect (t.set i v) w := by
  intro r hr
  rcases List.mem_or_eq_of_mem_set hr with hmem | rfl
  · exact hrect r hmem
  · exact hv

/-- The pure iteration of the level-fill steps `s, s+1, ..., s+m-1`
for axis=0. -/
def fillRowsFrom (t : Table) (s : Nat) : Nat → Table
  | 0 => t
  | m + 1 =>
    fillRowsFrom (t.set s (fillLevel (t.getD (s - 1) []) (t.getD s []))) (s + 1) m

theorem fillRowsFrom_length (m : Nat) :
    ∀ (s : Nat) (t : Table), (fillRowsFrom t s m).length = t.length := by
  induction m with
  | zero => intro s t; rfl
  | succ m ih =>
    intro s t
    rw [fillRowsFrom, ih, List.length_set]

theorem foldlM_rows_ok (m : Nat) :
    ∀ (s : Nat) (t out : Table),
      (List.range' s m).foldlM ffillRowStep t = .ok out →
      (∀ i, s ≤ i → i < s + m → i < t.length) ∧ out = fillRowsFrom t s m := by
  induction m with
  | zero =>
    intro s t out h
    refine ⟨fun i h1 h2 => absurd h2 (by omega), ?_⟩
    rw [show List.range' s 0 = [] from rfl, List.foldlM_nil] at h
    have h2 : Except.ok (ε := PyErr) t = Except.ok out := h
    injection h2 with h3
    exact h3.symm
  | succ m ih =>
    intro s t out h
    rw [List.range'_succ, List.foldlM_cons] at h
    obtain ⟨t2, hstep, hrest⟩ := except_bind_ok h
    by_cases hs : s < t.length
    · rw [ffillRowStep, if_pos hs] at hstep
      injection hstep with hstep2
      have ht2 : t2 = t.set s (fillLevel (t.getD (s - 1) []) (t.getD s [])) :=
        hstep2.symm
      subst ht2
      obtain ⟨hbound, hout⟩ := ih (s + 1) _ out hrest
      refine ⟨?_, ?_⟩
      · intro i h1 h2
        rcases Nat.eq_or_lt_of_le h1 with rfl | hlt
        · exact hs
        · have := hbound i hlt (by omega)
          rw [List.length_set] at this
          exact this
      · rw [fillRowsFrom]
        exact hout
    · rw [ffillRowStep, if_neg hs] at hstep
      exact absurd hstep (by simp)

theorem fillRowsFrom_rect (m : Nat) :
    ∀ (s : Nat) (t : Table) (w : Nat), 1 ≤ s → Rect t w →
      (∀ i, s ≤ i → i < s + m → i < t.length) →
      Rect (fillRowsFrom t s m) w := by
  induction m with
  | zero => intro s t w _ hrect _; exact hrect
  | succ m ih =>
    intro s t w hs hrect hbound
    rw [fillRowsFrom]
    have hslen : s < t.length := hbound s (le_refl s) (by omega)
    have hrect2 : Rect (t.set s (fillLevel (t.getD (s - 1) []) (t.getD s []))) w := by
      apply rect_set t w s _ hrect
      rw [fillLevel_length, rect_getD t w (s - 1) hrect (by omega),
        rect_getD t w s hrect hslen]
      exact Nat.min_self w
    have hbound2 : ∀ i, s + 1 ≤ i → i < s + 1 + m →
        i < (t.set s (fillLevel (t.getD (s - 1) []) (t.getD s []))).length := by
      intro i h1 h2
      rw [List.length_set]
      exact hbound i (by omega) (by omega)
    exact ih (s + 1) _ w (by omega) hrect2 hbound2

theorem fillRowsFrom_spec (m : Nat) :
    ∀ (s : Nat) (t : Table), 1 ≤ s →
      (∀ i, s ≤ i → i < s + m → i < t.length) →
      (∀ j, j < s → (fillRowsFrom t s m).getD j [] = t.getD j []) ∧
      (∀ j, s + m ≤ j → (fillRowsFrom t s m).getD j [] = t.getD j []) ∧
      (∀ i, s ≤ i → i < s + m →
        (fillRowsFrom t s m).getD i []
          = fillLevel ((fillRowsFrom t s m).getD (i - 1) []) (t.getD i [])) := by
  induction m with
  | zero =>
    intro s t hs _
    exact ⟨fun j _ => rfl, fun j _ => rfl, fun i h1 h2 => absurd h2 (by omega)⟩
  | succ m ih =>
    intro s t hs hbound
    have hslen : s < t.length := hbound s (le_refl s) (by omega)
    set t2 := t.set s (fillLevel (t.getD (s - 1) []) (t.getD s [])) with ht2
    have hbound2 : ∀ i, s + 1 ≤ i → i < s + 1 + m → i < t2.length := by
      intro i h1 h2
      rw [ht2, List.length_set]
      exact hbound i (by omega) (by omega)
    obtain ⟨ih1, ih2, ih3⟩ := ih (s + 1) t2 (by omega) hbound2
    have hval : ∀ j, j ≠ s → t2.getD j [] = t.getD j [] := by
      intro j hj
      rw [ht2]
      exact getD_set_ne t s j _ (fun he => hj he.symm)
    refine ⟨?_, ?_, ?_⟩
    · intro j hj
      rw [fillRowsFrom, ih1 j (by omega), hval j (by omega)]
    · intro j hj
      rw [fillRowsFrom, ih2 j (by omega), hval j (by omega)]
    · intro i h1 h2
      rcases Nat.eq_or_lt_of_le h1 with heq | hlt
      · rw [← heq]
        rw [fillRowsFrom, ih1 s (by omega)]
        have hgs : t2.getD s [] = fillLevel (t.getD (s - 1) []) (t.getD s []) := by
          rw [ht2]
          exact getD_set_self t s _ hslen
        rw [hgs]
        have hprev : (fillRowsFrom t2 (s + 1) m).getD (s - 1) []
            = t.getD (s - 1) [] := by
          rw [ih1 (s - 1) (by omega), hval (s - 1) (by omega)]
        rw [hprev]
      · have h3 := ih3 i (by omega) (by omega)
        rw [fillRowsFrom, h3, hval i (by omega)]

theorem colGet_length (t : Table) (j : Nat) : (colGet t j).length = t.length := by
  simp [colGet]

theorem setCol_length (t : Table) (j : Nat) (vals : List Cell) :
    (setCol t j vals).length = min t.length vals.length := by
  simp [setCol]

theorem setCol_headD_length (t : Table) (j : Nat) (vals : List Cell)
    (hlen : vals.length = t.length) :
    ((setCol t j vals).headD []).length = (t.headD []).length := by
  cases t with
  | nil => rfl
  | cons r rs =>
    cases vals with
    | nil => simp at hlen
    | cons v vs => simp [setCol, List.length_set]

theorem colGet_setCol_ne (j j2 : Nat) (hne : j ≠ j2) :
    ∀ (t : Table) (vals : List Cell), vals.length = t.length →
      colGet (setCol t j vals) j2 = colGet t j2 := by
  intro t
  induction t with
  | nil => intro vals _; rfl
  | cons r rs ih =>
    intro vals hlen
    cases vals with
    | nil => simp at hlen
    | cons v vs =>
      show (r.set j v).getD j2 none :: colGet (setCol rs j vs) j2
          = r.getD j2 none :: colGet rs j2
      congr 1
      · rw [List.getD_eq_getElem?_getD, List.getD_eq_getElem?_getD,
          List.getElem?_set_ne hne]
      · exact ih vs (by simpa using hlen)

theorem colGet_setCol_self (j : Nat) :
    ∀ (t : Table) (vals : List Cell), vals.length = t.length →
      (∀ r ∈ t, j < r.length) →
      colGet (setCol t j vals) j = vals := by
  intro t
  induction t with
  | nil =>
    intro vals hlen _
    cases vals with
    | nil => rfl
    | cons v vs => simp at hlen
  | cons r rs ih =>
    intro vals hlen hall
    cases vals with
    | nil => simp at hlen
    | cons v vs =>
      show (r.set j v).getD j none :: colGet (setCol rs j vs) j = v :: vs
      congr 1
      · have hj : j < r.length := hall r (by simp)
        rw [List.getD_eq_getElem?_getD,
          List.getElem?_eq_getElem (by rw [List.length_set]; exact hj),
          List.getElem_set_self]
        rfl
      · exact ih vs (by simpa using hlen) (fun r2 hr2 => hall r2 (by simp [hr2]))

theorem setCol_rect (t : Table) (w j : Nat) (vals : List Cell)
    (hrect : Rect t w) : Rect (setCol t j vals) w := by
  intro r hr
  obtain ⟨i, hi, hig⟩ := List.mem_iff_getElem.mp hr
  simp only [setCol] at hig
  rw [List.getElem_zipWith] at hig
  rw [← hig, List.length_set]
  exact hrect _ (List.getElem_mem _)

theorem setCol_setCol (j : Nat) :
    ∀ (t : Table) (vals : List Cell),
      setCol (setCol t j vals) j vals = setCol t j vals := by
  intro t
  induction t with
  | nil => intro vals; rfl
  | cons r rs ih =>
    intro vals
    cases vals with
    | nil => rfl
    | cons v vs =>
      show ((r.set j v).set j v) :: setCol (setCol rs j vs) j vs
          = (r.set j v) :: setCol rs j vs
      rw [List.set_set, ih vs]

/-- The pure iteration of the level-fill steps `s, s+1, ..., s+m-1`
for axis=1. -/
def fillColsFrom (t : Table) (s : Nat) : Nat → Table
  | 0 => t
  | m + 1 =>
    fillColsFrom (setCol t s (fillLevel (colGet t (s - 1)) (colGet t s))) (s + 1) m

theorem foldlM_cols_ok (m : Nat) :
    ∀ (s : Nat) (t out : Table),
      (List.range' s m).foldlM ffillColStep t = .ok out →
      (∀ i, s ≤ i → i < s + m → i < (t.headD []).length) ∧
        out = fillColsFrom t s m := by
  induction m with
  | zero =>
    intro s t out h
    refine ⟨fun i h1 h2 => absurd h2 (by omega), ?_⟩
    rw [show List.range' s 0 = [] from rfl, List.foldlM_nil] at h
    have h2 : Except.ok (ε := PyErr) t = Except.ok out := h
    injection h2 with h3
    exact h3.symm
  | succ m ih =>
    intro s t out h
    rw [List.range'_succ, List.foldlM_cons] at h
    obtain ⟨t2, hstep, hrest⟩ := except_bind_ok h
    by_cases hs : s < (t.headD []).length
    · rw [ffillColStep, if_pos hs] at hstep
      injection hstep with hstep2
      have ht2 : t2 = setCol t s (fillLevel (colGet t (s - 1)) (colGet t s)) :=
        hstep2.symm
      subst ht2
      have hvlen : (fillLevel (colGet t (s - 1)) (colGet t s)).length = t.length := by
        rw [fillLevel_length, colGet_length, colGet_length]
        exact Nat.min_self _
      obtain ⟨hbound, hout⟩ := ih (s + 1) _ out hrest
      refine ⟨?_, ?_⟩
      · intro i h1 h2
        rcases Nat.eq_or_lt_of_le h1 with heq | hlt
        · rw [← heq]; exact hs
        · have := hbound i hlt (by omega)
          rw [setCol_headD_length _ _ _ hvlen] at this
          exact this
      · rw [fillColsFrom]
        exact hout
    · rw [ffillColStep, if_neg hs] at hstep
      exact absurd hstep (by simp)

theorem fillColsFrom_spec (m : Nat) :
    ∀ (s : Nat) (t : Table) (w : Nat), 1 ≤ s → Rect t w →
      (∀ i, s ≤ i → i < s + m → i < w) →
      Rect (fillColsFrom t s m) w ∧
      (fillColsFrom t s m).length = t.length ∧
      (∀ j, j < s → colGet (fillColsFrom t s m) j = colGet t j) ∧
      (∀ j, s + m ≤ j → colGet (fillColsFrom t s m) j = colGet t j) ∧
      (∀ i, s ≤ i → i < s + m →
        colGet (fillColsFrom t s m) i
          = fillLevel (colGet (fillColsFrom t s m) (i - 1)) (colGet t i)) := by
  induction m with
  | zero =>
    intro s t w hs hrect _
    exact ⟨hrect, rfl, fun j _ => rfl, fun j _ => rfl,
      fun i h1 h2 => absurd h2 (by omega)⟩
  | succ m ih =>
    intro s t w hs hrect hbound
    have hsw : s < w := hbound s (le_refl s) (by omega)
    set vals := fillLevel (colGet t (s - 1)) (colGet t s) with hvals
    have hvlen : vals.length = t.length := by
      rw [hvals, fillLevel_length, colGet_length, colGet_length]
      exact Nat.min_self _
    set t2 := setCol t s vals with ht2
    have hrect2 : Rect t2 w := setCol_rect t w s vals hrect
    have ht2len : t2.length = t.length := by
      rw [ht2, setCol_length, hvlen]
      exact Nat.min_self _
    obtain ⟨ihr, ihlen, ih1, ih2, ih3⟩ :=
      ih (s + 1) t2 w (by omega) hrect2
        (fun i h1 h2 => hbound i (by omega) (by omega))
    have hval_ne : ∀ j, j ≠ s → colGet t2 j = colGet t j := by
      intro j hj
      rw [ht2]
      exact colGet_setCol_ne s j (fun he => hj he.symm) t vals hvlen
    have hval_self : colGet t2 s = vals := by
      rw [ht2]
      exact colGet_setCol_self s t vals hvlen
        (fun r hr => by rw [hrect r hr]; exact hsw)
    refine ⟨ihr, by rw [fillColsFrom, ihlen, ht2len], ?_, ?_, ?_⟩
    · intro j hj
      rw [fillColsFrom, ih1 j (by omega), hval_ne j (by omega)]
    · intro j hj
      rw [fillColsFrom, ih2 j (by omega), hval_ne j (by omega)]
    · intro i h1 h2
      rcases Nat.eq_or_lt_of_le h1 with heq | hlt
      · rw [← heq]
        rw [fillColsFrom, ih1 s (by omega), hval_self]
        have hprev : colGet (fillColsFrom t2 (s + 1) m) (s - 1) = colGet t (s - 1) := by
          rw [ih1 (s - 1) (by omega), hval_ne (s - 1) (by omega)]
        rw [hprev, hvals]
      · have h3 := ih3 i (by omega) (by omega)
        rw [fillColsFrom, h3, hval_ne i (by omega)]

theorem headD_length_of_rect (t : Table) (w : Nat) (hrect : Rect t w)
    (hne : t ≠ []) : (t.headD []).length = w := by
  cases t with
  | nil => exact absurd rfl hne
  | cons r rs => exact hrect r (by simp)

/-- Claim C1 (confirmed): for `header_count = N ≥ 2` and either axis,
`forward_fill_headers` fills level 0 by plain forward fill, and each later
level `i` ends exactly as the specification's group-bounded rule
(`fillLevelSpec`) demands: a position whose (already filled) level-`i-1`
value is missing is excluded from the fill and ends missing at level `i`,
and every other position holds the nearest preceding (or own) non-missing
level-`i` input value among the positions sharing its level-`i-1` value —
so the fill never crosses a parent-group boundary. -/
theorem forward_fill_headers_group_bounded (t : Table) (axis : Axis)
    (n w : Nat) (out : Table) (hn : 2 ≤ n) (hrect : Rect t w)
    (h : forward_fill_headers t n axis = .ok out) :
    lineGet axis out 0 = ffill (lineGet axis t 0) ∧
    ∀ i, 1 ≤ i → i < n →
      lineGet axis out i
        = fillLevelSpec (lineGet axis out (i - 1)) (lineGet axis t i) := by
  cases axis with
  | index =>
    rw [forward_fill_headers, forward_fill_headers_rows,
      if_neg (by omega : ¬ n = 0)] at h
    by_cases hemp : t.isEmpty
    · rw [if_pos hemp] at h
      exact absurd h (by simp)
    · rw [if_neg hemp] at h
      have htne : 0 < t.length := by
        cases t with
        | nil => simp [List.isEmpty] at hemp
        | cons r rs => simp
      set t0 := t.set 0 (ffill (t.getD 0 [])) with ht0
      obtain ⟨hbound, hout⟩ := foldlM_rows_ok (n - 1) 1 t0 out h
      have ht0len : t0.length = t.length := by rw [ht0, List.length_set]
      have hb2 : ∀ i, 1 ≤ i → i < n → i < t.length := by
        intro i h1 h2
        have := hbound i h1 (by omega)
        rw [ht0len] at this
        exact this
      have hrect0 : Rect t0 w := by
        apply rect_set t w 0 _ hrect
        rw [ffill_length]
        exact rect_getD t w 0 hrect htne
      obtain ⟨sp1, sp2, sp3⟩ :=
        fillRowsFrom_spec (n - 1) 1 t0 (le_refl 1)
          (fun i h1 h2 => by rw [ht0len]; exact hb2 i h1 (by omega))
      have hrectout : Rect out w := by
        rw [hout]
        exact fillRowsFrom_rect (n - 1) 1 t0 w (le_refl 1) hrect0
          (fun i h1 h2 => by rw [ht0len]; exact hb2 i h1 (by omega))
      have houtlen : out.length = t.length := by
        rw [hout, fillRowsFrom_length, ht0len]
      constructor
      · show out.getD 0 [] = ffill (t.getD 0 [])
        rw [hout, sp1 0 (by omega), ht0]
        exact getD_set_self t 0 _ htne
      · intro i h1 h2
        show out.getD i []
            = fillLevelSpec (out.getD (i - 1) []) (t.getD i [])
        have hsp := sp3 i h1 (by omega)
        have ht0i : t0.getD i [] = t.getD i [] := by
          rw [ht0]
          exact getD_set_ne t 0 i _ (by omega)
        rw [← hout] at hsp
        rw [hsp, ht0i]
        apply fillLevel_eq_spec
        have hi1len : i - 1 < t.length := by
          rcases Nat.eq_or_lt_of_le h1 with heq | hlt
          · rw [← heq]; simpa using htne
          · exact Nat.lt_of_le_of_lt (by omega) (hb2 i h1 h2)
        rw [rect_getD out w (i - 1) hrectout (by rw [houtlen]; exact hi1len),
          rect_getD t w i hrect (hb2 i h1 h2)]
  | columns =>
    rw [forward_fill_headers, forward_fill_headers_cols,
      if_neg (by omega : ¬ n = 0)] at h
    by_cases hemp : (t.headD []).isEmpty
    · rw [if_pos hemp] at h
      exact absurd h (by simp)
    · rw [if_neg hemp] at h
      have htne : t ≠ [] := by
        intro he
        rw [he] at hemp
        exact hemp rfl
      have hw : (t.headD []).length = w := headD_length_of_rect t w hrect htne
      have hwpos : 0 < w := by
        rw [← hw]
        cases hh : t.headD [] with
        | nil => rw [hh] at hemp; exact absurd rfl hemp
        | cons c cs => simp
      have hvlen0 : (ffill (colGet t 0)).length = t.length := by
        rw [ffill_length, colGet_length]
      set t0 := setCol t 0 (ffill (colGet t 0)) with ht0
      have ht0head : (t0.headD []).length = w := by
        rw [ht0, setCol_headD_length t 0 _ hvlen0, hw]
      have ht0len : t0.length = t.length := by
        rw [ht0, setCol_length, hvlen0]
        exact Nat.min_self _
      obtain ⟨hbound, hout⟩ := foldlM_cols_ok (n - 1) 1 t0 out h
      have hb2 : ∀ i, 1 ≤ i → i < n → i < w := by
        intro i h1 h2
        have := hbound i h1 (by omega)
        rw [ht0head] at this
        exact this
      have hrect0 : Rect t0 w := setCol_rect t w 0 _ hrect
      obtain ⟨spr, splen, sp1, sp2, sp3⟩ :=
        fillColsFrom_spec (n - 1) 1 t0 w (le_refl 1) hrect0
          (fun i h1 h2 => hb2 i h1 (by omega))
      have houtlen : out.length = t.length := by
        rw [hout, splen, ht0len]
      constructor
      · show colGet out 0 = ffill (colGet t 0)
        rw [hout, sp1 0 (by omega), ht0]
        exact colGet_setCol_self 0 t _ hvlen0
          (fun r hr => by rw [hrect r hr]; exact hwpos)
      · intro i h1 h2
        show colGet out i = fillLevelSpec (colGet out (i - 1)) (colGet t i)
        have hsp := sp3 i h1 (by omega)
        have ht0i : colGet t0 i = colGet t i := by
          rw [ht0]
          exact colGet_setCol_ne 0 i (by omega) t _ hvlen0
        rw [← hout] at hsp
        rw [hsp, ht0i]
        apply fillLevel_eq_spec
        rw [colGet_length, colGet_length, houtlen]

/-- Witness for C1 at a concrete input: a 2-level header block where the
level-1 value at the second position is inherited within the `"a"` group
and the `"b"` group stays missing. -/
theorem forward_fill_headers_group_bounded_witness :
    lineGet Axis.index
        [[some "a", some "a", some "b", some "b"],
         [some "x", some "x", none, none]] 0
      = ffill (lineGet Axis.index
          [[some "a", none, some "b", none],
           [some "x", none, none, none]] 0) ∧
    ∀ i, 1 ≤ i → i < 2 →
      lineGet Axis.index
          [[some "a", some "a", some "b", some "b"],
           [some "x", some "x", none, none]] i
        = fillLevelSpec
            (lineGet Axis.index
              [[some "a", some "a", some "b", some "b"],
               [some "x", some "x", none, none]] (i - 1))
            (lineGet Axis.index
              [[some "a", none, some "b", none],
               [some "x", none, none, none]] i) :=
  forward_fill_headers_group_bounded
    [[some "a", none, some "b", none], [some "x", none, none, none]]
    Axis.index 2 4
    [[some "a", some "a", some "b", some "b"], [some "x", some "x", none, none]]
    (by omega) (by decide) (by rfl)

/-- Claim C9 (confirmed): `forward_fill_headers` with `header_count = 1` is
idempotent on either axis — applying it to its own (successful) output
returns that output unchanged, because plain forward fill is idempotent. -/
theorem forward_fill_headers_idempotent (t : Table) (axis : Axis) (w : Nat)
    (hrect : Rect t w) (out : Table)
    (h : forward_fill_headers t 1 axis = .ok out) :
    forward_fill_headers out 1 axis = .ok out := by
  cases axis with
  | index =>
    rw [forward_fill_headers, forward_fill_headers_rows,
      if_neg (by omega : ¬ (1 : Nat) = 0)] at h
    by_cases hemp : t.isEmpty
    · rw [if_pos hemp] at h
      exact absurd h (by simp)
    · rw [if_neg hemp] at h
      have htne : 0 < t.length := by
        cases t with
        | nil => simp [List.isEmpty] at hemp
        | cons r rs => simp
      rw [show (1 : Nat) - 1 = 0 from rfl, show List.range' 1 0 = [] from rfl,
        List.foldlM_nil] at h
      have h2 : Except.ok (ε := PyErr) (t.set 0 (ffill (t.getD 0 []))) = .ok out := h
      injection h2 with h3
      rw [forward_fill_headers, forward_fill_headers_rows,
        if_neg (by omega : ¬ (1 : Nat) = 0)]
      have houtlen : out.length = t.length := by
        rw [← h3, List.length_set]
      have hemp2 : out.isEmpty = false := by
        cases hcase : out with
        | nil => rw [hcase] at houtlen; simp at houtlen; omega
        | cons r rs => rfl
      rw [hemp2]
      simp only [Bool.false_eq_true, if_false]
      rw [show (1 : Nat) - 1 = 0 from rfl, show List.range' 1 0 = [] from rfl,
        List.foldlM_nil]
      have hget : out.getD 0 [] = ffill (t.getD 0 []) := by
        rw [← h3]
        exact getD_set_self t 0 _ htne
      rw [hget, ffill_idem, ← h3, List.set_set]
      rfl
  | columns =>
    rw [forward_fill_headers, forward_fill_headers_cols,
      if_neg (by omega : ¬ (1 : Nat) = 0)] at h
    by_cases hemp : (t.headD []).isEmpty
    · rw [if_pos hemp] at h
      exact absurd h (by simp)
    · rw [if_neg hemp] at h
      have htne : t ≠ [] := by
        intro he
        rw [he] at hemp
        exact hemp rfl
      have hw : (t.headD []).length = w := headD_length_of_rect t w hrect htne
      have hwpos : 0 < w := by
        rw [← hw]
        cases hh : t.headD [] with
        | nil => rw [hh] at hemp; exact absurd rfl hemp
        | cons c cs => simp
      have hvlen0 : (ffill (colGet t 0)).length = t.length := by
        rw [ffill_length, colGet_length]
      rw [show (1 : Nat) - 1 = 0 from rfl, show List.range' 1 0 = [] from rfl,
        List.foldlM_nil] at h
      have h2 : Except.ok (ε := PyErr) (setCol t 0 (ffill (colGet t 0))) = .ok out := h
      injection h2 with h3
      rw [forward_fill_headers, forward_fill_headers_cols,
        if_neg (by omega : ¬ (1 : Nat) = 0)]
      have houthead : (out.headD []).length = (t.headD []).length := by
        rw [← h3]
        exact setCol_headD_length t 0 _ hvlen0
      have hemp2 : out.headD [] ≠ [] := by
        intro he
        have : (t.headD []).length = 0 := by rw [← houthead, he]; rfl
        rw [hw] at this
        omega
      have hemp3 : (out.headD []).isEmpty = false := by
        cases hcase : out.headD [] with
        | nil => exact absurd hcase hemp2
        | cons c cs => rfl
      rw [hemp3]
      simp only [Bool.false_eq_true, if_false]
      rw [show (1 : Nat) - 1 = 0 from rfl, show List.range' 1 0 = [] from rfl,
        List.foldlM_nil]
      have hget : colGet out 0 = ffill (colGet t 0) := by
        rw [← h3]
        exact colGet_setCol_self 0 t _ hvlen0
          (fun r hr => by rw [hrect r hr]; exact hwpos)
      rw [hget, ffill_idem, ← h3, setCol_setCol]
      rfl

/-- Witness for C9 at a concrete input (axis=1). -/
theorem forward_fill_headers_idempotent_witness :
    forward_fill_headers [[some "a", none], [some "a", some "b"]] 1 Axis.columns
      = .ok [[some "a", none], [some "a", some "b"]] :=
  forward_fill_headers_idempotent [[some "a", none], [none, some "b"]]
    Axis.columns 2 (by decide) [[some "a", none], [some "a", some "b"]] (by rfl)

/-! ## Index Builder: `create_multiindex`
(`ds_utils/dataframe_operations.py`, lines 278-346)

`df.iloc[a:, x]` slices Python-style (a negative start counts from the
end), `df.iloc[x, c:]` demands the scalar position `x` be in bounds
(`IndexError` otherwise), and `pd.MultiIndex.from_arrays` raises
`ValueError` when handed an empty list of arrays (or arrays of unequal
lengths).  The rebuilt frame is represented by its row-label tuples, its
column-label tuples and its data block; level names do not affect any
claim (the default names always have the right count) and are omitted. -/

/-- Python slice `l[i:]` for an `int` `i`: a negative start counts from the
end, clamped at 0. -/
def pySliceFrom (l : List α) (i : Int) : List α :=
  if 0 ≤ i then l.drop i.toNat else l.drop (l.length - (-i).toNat)

/-- Model of `range(0, n)` for an `int` bound: empty when `n ≤ 0`. -/
def intRange (n : Int) : List Nat := List.range n.toNat

/-- The column count of a rectangular table. -/
def tableWidth (t : Table) : Nat := (t.headD []).length

/-- Model of `df.iloc[r:, x].values` for a scalar column position `x`: the column
position must be in bounds, the row slice need not be. -/
def ilocCol (t : Table) (r : Int) (x : Nat) : Except PyErr (List Cell) :=
  if x < tableWidth t then
    .ok ((pySliceFrom t r).map (fun row => row.getD x none))
  else .error .indexError

/-- Model of `df.iloc[x, c:].values` for a scalar row position `x`. -/
def ilocRowSlice (t : Table) (x : Nat) (c : Int) : Except PyErr (List Cell) :=
  if x < t.length then .ok (pySliceFrom (t.getD x []) c)
  else .error .indexError

/-- Model of `pd.MultiIndex.from_arrays(arrays)`: fails on an empty list of arrays
or on arrays of unequal length; otherwise the labels are the transposed
tuples. -/
def fromArrays (arrays : List (List Cell)) : Except PyErr (List (List Cell)) :=
  if arrays.isEmpty then .error .valueError
  else if arrays.all (fun a => a.length == (arrays.headD []).length) then
    .ok ((List.range (arrays.headD []).length).map
      (fun j => arrays.map (fun a => a.getD j none)))
  else .error .valueError

/-- The result of `create_multiindex`: a frame addressed purely by
hierarchical labels — row-label tuples (`index`, outer-to-inner),
column-label tuples (`columns`) and the data block. -/
structure IndexedTable where
  index : List (List Cell)
  columns : List (List Cell)
  data : List (List Cell)
deriving DecidableEq, Repr

/-- Model of `create_multiindex(df, header_row_count, header_column_count)`: build
the row hierarchy from the first `header_column_count` columns below the
header rows, the column hierarchy from the first `header_row_count` rows
right of the header columns, take the bottom-right block as data, and
rebuild the frame (`pd.DataFrame(data.values, index=..., columns=...)`,
which checks that the shapes agree). -/
def create_multiindex (t : Table) (header_row_count header_column_count : Int) :
    Except PyErr IndexedTable := do
  let arraysIdx ← (intRange header_column_count).mapM (ilocCol t header_row_count)
  let mi ← fromArrays arraysIdx
  let arraysCols ← (intRange header_row_count).mapM
    (fun x => ilocRowSlice t x header_column_count)
  let mc ← fromArrays arraysCols
  let data := (pySliceFrom t header_row_count).map
    (fun row => pySliceFrom row header_column_count)
  if data.length == mi.length && data.all (fun r => r.length == mc.length) then
    pure (IndexedTable.mk mi mc data)
  else
    Except.error .valueError

theorem except_ok_bind {a : α} {f : α → Except PyErr β} :
    (Except.ok a >>= f) = f a := rfl

theorem except_error_bind {e : PyErr} {f : α → Except PyErr β} :
    ((Except.error e : Except PyErr α) >>= f) = Except.error e := rfl

theorem except_pure (a : α) : (pure a : Except PyErr α) = Except.ok a := rfl

theorem exceptMapM_all_ok {f : α → Except PyErr β} {g : α → β} :
    ∀ (l : List α), (∀ x ∈ l, f x = .ok (g x)) → l.mapM f = .ok (l.map g) := by
  intro l
  induction l with
  | nil => intro _; rfl
  | cons a as ih =>
    intro h
    rw [← List.mapM'_eq_mapM]
    show (do
      let b ← f a
      let bs ← List.mapM' f as
      pure (b :: bs) : Except PyErr (List β)) = _
    rw [h a (by simp), except_ok_bind, List.mapM'_eq_mapM,
      ih (fun x hx => h x (by simp [hx])), except_ok_bind]
    rfl

theorem exceptMapM_err {f : α → Except PyErr β} {e : PyErr} {x : α}
    (hx : f x = .error e) :
    ∀ (l1 l2 : List α), (∀ y ∈ l1, ∃ b, f y = .ok b) →
      (l1 ++ x :: l2).mapM f = .error e := by
  intro l1
  induction l1 with
  | nil =>
    intro l2 _
    rw [← List.mapM'_eq_mapM]
    show (do
      let b ← f x
      let bs ← List.mapM' f l2
      pure (b :: bs) : Except PyErr (List β)) = _
    rw [hx, except_error_bind]
  | cons a as ih =>
    intro l2 h1
    obtain ⟨b, hb⟩ := h1 a (by simp)
    rw [← List.mapM'_eq_mapM]
    show (do
      let b2 ← f a
      let bs ← List.mapM' f (as ++ x :: l2)
      pure (b2 :: bs) : Except PyErr (List β)) = _
    rw [hb, except_ok_bind, List.mapM'_eq_mapM,
      ih l2 (fun y hy => h1 y (by simp [hy])), except_error_bind]

theorem fromArrays_ok (arrays : List (List Cell)) (n : Nat)
    (hne : arrays ≠ []) (hlen : ∀ a ∈ arrays, a.length = n) :
    fromArrays arrays
      = .ok ((List.range n).map (fun j => arrays.map (fun a => a.getD j none))) := by
  have hhead : (arrays.headD []).length = n := by
    cases arrays with
    | nil => exact absurd rfl hne
    | cons a as => exact hlen a (by simp)
  have hempty : arrays.isEmpty = false := by
    cases arrays with
    | nil => exact absurd rfl hne
    | cons a as => rfl
  have hall2 : (arrays.all fun a => a.length == n) = true := by
    rw [List.all_eq_true]
    intro a ha
    rw [hlen a ha]
    simp
  rw [fromArrays, hempty]
  simp only [Bool.false_eq_true, if_false, hhead, hall2, if_true]

/-- The self-recovery of a list from positional lookups. -/
theorem selfMapRange {α : Type} (l : List α) (d : α) :
    (List.range l.length).map (fun i => l.getD i d) = l := by
  apply List.ext_getElem (by simp)
  intro n h1 h2
  simp [List.getD_eq_getElem?_getD, List.getElem?_eq_getElem h2]

/-- Claim C5 counterexample: on the 1-by-2 table `[["a", "b"]]` with
`header_row_count = 2` (exceeding the single row) and
`header_column_count = 1`, `create_multiindex` fails with `IndexError`
(from `df.iloc[1, 1:]`), not `ValueError` — the source performs no
parameter validation of its own. -/
theorem create_multiindex_validation_counterexample :
    create_multiindex [[some "a", some "b"]] 2 1 = .error .indexError ∧
    PyErr.indexError ≠ PyErr.valueError := by
  constructor
  · rfl
  · decide

/-- Claim C5 (amended): `create_multiindex` performs no parameter
validation of its own.  On a nonempty rectangular table of width `w`: a
non-positive header_column_count `C` — or, with `C` in range, a
non-positive header_row_count `R` — makes `pd.MultiIndex.from_arrays([])`
raise `ValueError`; a count exceeding the corresponding dimension makes
`df.iloc` raise `IndexError`, not `ValueError`. -/
theorem create_multiindex_validation_amended (t : Table) (w : Nat) (R C : Int)
    (hrect : Rect t w) (hne : t ≠ []) :
    (C ≤ 0 → create_multiindex t R C = .error .valueError) ∧
    (0 < C → (w : Int) < C → create_multiindex t R C = .error .indexError) ∧
    (0 < C → C ≤ (w : Int) → R ≤ 0 →
      create_multiindex t R C = .error .valueError) ∧
    (0 < C → C ≤ (w : Int) → 0 < R → (t.length : Int) < R →
      create_multiindex t R C = .error .indexError) := by
  have hwidth : tableWidth t = w := headD_length_of_rect t w hrect hne
  have hokIdx : C ≤ (w : Int) →
      (intRange C).mapM (ilocCol t R)
        = .ok ((intRange C).map
            (fun x => (pySliceFrom t R).map (fun row => row.getD x none))) := by
    intro hCw
    apply exceptMapM_all_ok
    intro x hx
    rw [intRange, List.mem_range] at hx
    rw [ilocCol, hwidth, if_pos (by omega)]
  refine ⟨?_, ?_, ?_, ?_⟩
  · intro hC
    have h0 : intRange C = [] := by
      rw [intRange, Int.toNat_of_nonpos hC]
      rfl
    rw [create_multiindex, h0]
    rfl
  · intro hC hwC
    have hw2 : w < C.toNat := by omega
    have hsplit : List.range C.toNat
        = List.range w ++ w :: List.range' (w + 1) (C.toNat - w - 1) := by
      have h1 := List.range'_append 0 w (C.toNat - w - 1 + 1) 1
      simp only [one_mul, Nat.zero_add] at h1
      rw [List.range_eq_range', List.range_eq_range',
        show C.toNat = C.toNat - w - 1 + 1 + w from by omega, ← h1,
        List.range'_succ]
      congr 3
      omega
    have herr : (intRange C).mapM (ilocCol t R) = .error .indexError := by
      rw [intRange, hsplit]
      apply exceptMapM_err
      · rw [ilocCol, hwidth, if_neg (by omega)]
      · intro y hy
        rw [List.mem_range] at hy
        exact ⟨_, by rw [ilocCol, hwidth, if_pos hy]⟩
    rw [create_multiindex, herr]
    rfl
  · intro hC hCw hR
    have hok := hokIdx hCw
    have hCne : intRange C ≠ [] := by
      rw [intRange]
      simp only [ne_eq, List.range_eq_nil]
      omega
    have hmi := fromArrays_ok
      ((intRange C).map (fun x => (pySliceFrom t R).map (fun row => row.getD x none)))
      (pySliceFrom t R).length
      (by simpa using hCne)
      (by
        intro a ha
        rw [List.mem_map] at ha
        obtain ⟨x, _, rfl⟩ := ha
        rw [List.length_map])
    have hR0 : intRange R = [] := by
      rw [intRange, Int.toNat_of_nonpos hR]
      rfl
    rw [create_multiindex]
    simp only [hok, except_ok_bind, hmi, hR0]
    rfl
  · intro hC hCw hR hlenR
    have hok := hokIdx hCw
    have hCne : intRange C ≠ [] := by
      rw [intRange]
      simp only [ne_eq, List.range_eq_nil]
      omega
    have hmi := fromArrays_ok
      ((intRange C).map (fun x => (pySliceFrom t R).map (fun row => row.getD x none)))
      (pySliceFrom t R).length
      (by simpa using hCne)
      (by
        intro a ha
        rw [List.mem_map] at ha
        obtain ⟨x, _, rfl⟩ := ha
        rw [List.length_map])
    have hlen2 : t.length < R.toNat := by omega
    have hsplit : List.range R.toNat
        = List.range t.length
            ++ t.length :: List.range' (t.length + 1) (R.toNat - t.length - 1) := by
      have h1 := List.range'_append 0 t.length (R.toNat - t.length - 1 + 1) 1
      simp only [one_mul, Nat.zero_add] at h1
      rw [List.range_eq_range', List.range_eq_range',
        show R.toNat = R.toNat - t.length - 1 + 1 + t.length from by omega, ← h1,
        List.range'_succ]
      congr 3
      omega
    have herr2 : (intRange R).mapM (fun x => ilocRowSlice t x C)
        = .error .indexError := by
      rw [intRange, hsplit]
      apply exceptMapM_err
      · rw [ilocRowSlice, if_neg (by omega)]
      · intro y hy
        rw [List.mem_range] at hy
        exact ⟨_, by rw [ilocRowSlice, if_pos hy]⟩
    rw [create_multiindex]
    simp only [hok, except_ok_bind, hmi, herr2]
    rfl

/-- Witness for the amended C5 at a concrete input (negative
header_row_count on a 1-by-1 table gives `ValueError`). -/
theorem create_multiindex_validation_amended_witness :
    create_multiindex [[some "a"]] (-3) 1 = .error .valueError :=
  (create_multiindex_validation_amended [[some "a"]] 1 (-3) 1 (by decide)
    (by decide)).2.2.1 (by decide) (by decide) (by decide)

theorem getD_append_left {l1 l2 : List α} (i : Nat) (d : α) (h : i < l1.length) :
    (l1 ++ l2).getD i d = l1.getD i d := by
  rw [List.getD_eq_getElem?_getD, List.getD_eq_getElem?_getD,
    List.getElem?_append, if_pos h]

theorem getD_zipWith_append (a b : Table) (x : Nat) (ha : x < a.length)
    (hb : x < b.length) :
    (List.zipWith (· ++ ·) a b).getD x [] = a.getD x [] ++ b.getD x [] := by
  have hx : x < (List.zipWith (· ++ ·) a b).length := by
    rw [List.length_zipWith]
    omega
  rw [List.getD_eq_getElem?_getD, List.getElem?_eq_getElem hx,
    List.getElem_zipWith, List.getD_eq_getElem?_getD,
    List.getElem?_eq_getElem ha, List.getD_eq_getElem?_getD,
    List.getElem?_eq_getElem hb]
  rfl

theorem getD_map_lt {α β : Type} (f : α → β) (l : List α) (j : Nat) (d : α)
    (d2 : β) (hj : j < l.length) : (l.map f).getD j d2 = f (l.getD j d) := by
  rw [List.getD_eq_getElem?_getD,
    List.getElem?_eq_getElem (by rw [List.length_map]; exact hj),
    List.getElem_map, List.getD_eq_getElem?_getD, List.getElem?_eq_getElem hj]
  rfl

/-- Claim C6 (confirmed): assembling a top-left R-by-C corner, a
column-hierarchy block (R rows by m columns), a row-hierarchy block (n rows
by C columns) and an n-by-m data block into one raw table and calling
`create_multiindex` with those counts yields exactly the original data
block, addressed by row labels equal to the rows of the row-hierarchy
block and column labels equal to the columns of the column-hierarchy
block. -/
theorem create_multiindex_round_trip
    (corner colH rowH dataB : Table) (R C n m : Nat)
    (hR : 1 ≤ R) (hC : 1 ≤ C)
    (hcorner_len : corner.length = R) (hcolH_len : colH.length = R)
    (hrowH_len : rowH.length = n) (hdataB_len : dataB.length = n)
    (hcorner : Rect corner C) (hcolH : Rect colH m)
    (hrowH : Rect rowH C) (hdataB : Rect dataB m) :
    create_multiindex
        (List.zipWith (· ++ ·) corner colH ++ List.zipWith (· ++ ·) rowH dataB)
        (R : Int) (C : Int)
      = .ok (IndexedTable.mk rowH
          ((List.range m).map (fun k => colH.map (fun a => a.getD k none)))
          dataB) := by
  set top := List.zipWith (· ++ ·) corner colH with htop
  set bottom := List.zipWith (· ++ ·) rowH dataB with hbottom
  set A := top ++ bottom with hA
  have htop_len : top.length = R := by
    rw [htop, List.length_zipWith, hcorner_len, hcolH_len]
    exact Nat.min_self R
  have hbot_len : bottom.length = n := by
    rw [hbottom, List.length_zipWith, hrowH_len, hdataB_len]
    exact Nat.min_self n
  have hA_len : A.length = R + n := by
    rw [hA, List.length_append, htop_len, hbot_len]
  have htop_row : ∀ x, x < R → A.getD x [] = corner.getD x [] ++ colH.getD x [] := by
    intro x hx
    rw [hA, getD_append_left x [] (by rw [htop_len]; exact hx), htop]
    exact getD_zipWith_append corner colH x (by omega) (by omega)
  have hbottom_row : ∀ j, j < n →
      bottom.getD j [] = rowH.getD j [] ++ dataB.getD j [] := by
    intro j hj
    rw [hbottom]
    exact getD_zipWith_append rowH dataB j (by omega) (by omega)
  have hheadD_getD : ∀ (l : Table), l.headD [] = l.getD 0 [] := by
    intro l
    cases l <;> rfl
  have hwidthA : tableWidth A = C + m := by
    rw [tableWidth, hheadD_getD, htop_row 0 (by omega)]
    rw [List.length_append,
      rect_getD corner C 0 hcorner (by omega),
      rect_getD colH m 0 hcolH (by omega)]
  have hslice : pySliceFrom A (R : Int) = bottom := by
    rw [pySliceFrom, if_pos (Int.natCast_nonneg R)]
    have : ((R : Int)).toNat = R := by simp
    rw [this, hA, ← htop_len, List.drop_left]
  have hCr : intRange (C : Int) = List.range C := by
    rw [intRange]
    simp
  have hRr : intRange (R : Int) = List.range R := by
    rw [intRange]
    simp
  have harraysIdx : (intRange (C : Int)).mapM (ilocCol A (R : Int))
      = .ok ((List.range C).map
          (fun x => bottom.map (fun row => row.getD x none))) := by
    rw [hCr]
    apply exceptMapM_all_ok
    intro x hx
    rw [List.mem_range] at hx
    rw [ilocCol, hwidthA, if_pos (by omega), hslice]
  have hmi := fromArrays_ok
    ((List.range C).map (fun x => bottom.map (fun row => row.getD x none)))
    n
    (by
      simp only [ne_eq, List.map_eq_nil_iff, List.range_eq_nil]
      omega)
    (by
      intro a ha
      rw [List.mem_map] at ha
      obtain ⟨x, _, rfl⟩ := ha
      rw [List.length_map, hbot_len])
  have hmi_eq : (List.range n).map
      (fun j => ((List.range C).map
        (fun x => bottom.map (fun row => row.getD x none))).map
          (fun a => a.getD j none))
      = rowH := by
    apply List.ext_getElem (by simp [hrowH_len])
    intro j h1 h2
    have hjn : j < n := by simpa using h1
    rw [List.getElem_map, List.getElem_range, List.map_map]
    have hin : ∀ x, x < C →
        (bottom.map (fun row => row.getD x none)).getD j none
          = (rowH.getD j []).getD x none := by
      intro x hx
      rw [getD_map_lt _ bottom j [] none (by omega), hbottom_row j hjn,
        getD_append_left x none (by rw [rect_getD rowH C j hrowH (by omega)]; exact hx)]
    have hrowj : (rowH.getD j []).length = C := rect_getD rowH C j hrowH (by omega)
    have hrowjg : rowH.getD j [] = rowH[j] := by
      rw [List.getD_eq_getElem?_getD, List.getElem?_eq_getElem (by omega)]
      rfl
    calc (List.range C).map
          ((fun a => a.getD j none) ∘ (fun x => bottom.map (fun row => row.getD x none)))
        = (List.range C).map (fun x => (rowH.getD j []).getD x none) := by
          apply List.map_congr_left
          intro x hx
          rw [List.mem_range] at hx
          exact hin x hx
      _ = rowH[j] := by
          rw [← hrowj, selfMapRange, hrowjg]
  have hmi2 : fromArrays
      ((List.range C).map (fun x => bottom.map (fun row => row.getD x none)))
      = .ok rowH := by
    rw [hmi, hmi_eq]
  have harraysCols : (intRange (R : Int)).mapM (fun x => ilocRowSlice A x (C : Int))
      = .ok ((List.range R).map (fun x => colH.getD x [])) := by
    rw [hRr]
    apply exceptMapM_all_ok
    intro x hx
    rw [List.mem_range] at hx
    rw [ilocRowSlice, if_pos (by rw [hA_len]; omega), htop_row x hx,
      pySliceFrom, if_pos (Int.natCast_nonneg C)]
    have hc : ((C : Int)).toNat = C := by simp
    rw [hc, ← rect_getD corner C x hcorner (by omega), List.drop_left]
  have hcols_eq : (List.range R).map (fun x => colH.getD x []) = colH := by
    rw [← hcolH_len]
    exact selfMapRange colH []
  have hmc := fromArrays_ok colH m
    (by
      intro he
      rw [he] at hcolH_len
      simp at hcolH_len
      omega)
    (fun a ha => hcolH a ha)
  have hdata : (pySliceFrom A (R : Int)).map (fun row => pySliceFrom row (C : Int))
      = dataB := by
    rw [hslice]
    apply List.ext_getElem (by rw [List.length_map, hbot_len, hdataB_len])
    intro j h1 h2
    have hjn : j < n := by
      rw [List.length_map, hbot_len] at h1
      exact h1
    rw [List.getElem_map]
    have hbj : bottom[j] = bottom.getD j [] := by
      rw [List.getD_eq_getElem?_getD, List.getElem?_eq_getElem (by omega)]
      rfl
    rw [hbj, hbottom_row j hjn, pySliceFrom, if_pos (Int.natCast_nonneg C)]
    have hc : ((C : Int)).toNat = C := by simp
    rw [hc, ← rect_getD rowH C j hrowH (by omega), List.drop_left]
    rw [List.getD_eq_getElem?_getD, List.getElem?_eq_getElem (by omega)]
    rfl
  have hcond : ((pySliceFrom A (R : Int)).map
        (fun row => pySliceFrom row (C : Int))).length == rowH.length
      && ((pySliceFrom A (R : Int)).map (fun row => pySliceFrom row (C : Int))).all
          (fun r => r.length
            == ((List.range m).map (fun k => colH.map (fun a => a.getD k none))).length) := by
    rw [hdata]
    apply Bool.and_eq_true_iff.mpr
    constructor
    · rw [hdataB_len, hrowH_len]
      simp
    · rw [List.all_eq_true]
      intro r hr
      rw [hdataB r hr, List.length_map, List.length_range]
      simp
  rw [create_multiindex]
  simp only [harraysIdx, except_ok_bind, hmi2, harraysCols, hcols_eq, hmc,
    except_pure]
  rw [if_pos hcond]
  rw [hdata]

/-- Witness for C6 at a concrete input (`R = C = n = m = 1`). -/
theorem create_multiindex_round_trip_witness :
    create_multiindex [[some "c", some "H"], [some "r", some "d"]] 1 1
      = .ok (IndexedTable.mk [[some "r"]]
          ((List.range 1).map (fun k => [[some "H"]].map (fun a => a.getD k none)))
          [[some "d"]]) :=
  create_multiindex_round_trip [[some "c"]] [[some "H"]] [[some "r"]] [[some "d"]]
    1 1 1 1 (by omega) (by omega) (by decide) (by decide) (by decide) (by decide)
    (by decide) (by decide) (by decide) (by decide)

/-! ## Column/Row Splitter: `turn_column_into_columns_values`
(`ds_utils/dataframe_operations.py`, lines 472-653)

The embedding covers frames with the default flat positional row index;
the source's `column in df.index.names` branch is never taken for such
frames (a RangeIndex has names `[None]`, never a string).  The source
never mutates its input frame — it operates on `reset_index()` / `.copy()`
results — so the embedding is pure.  `Series.isin` is modelled as plain
equality membership on cells. -/

/-- A dataframe with the default flat positional row index: an ordered
list of named columns. -/
structure DF where
  cols : List (String × List Cell)
deriving DecidableEq, Repr

/-- Model of `df.columns.get_loc(column)`: the position of the named column
(`KeyError` when absent is raised by the caller below). -/
def DF.getLoc? (df : DF) (column : String) : Option Nat :=
  df.cols.findIdx? (fun p => p.1 == column)

/-- The cells of a named column, `df.loc[:, column]`. -/
def getColOf (cols : List (String × List Cell)) (nm : String) : List Cell :=
  ((cols.find? (fun p => p.1 == nm)).map (fun p => p.2)).getD []

/-- Replace the cells of a named column. -/
def updateCol (cols : List (String × List Cell)) (nm : String)
    (v : List Cell) : List (String × List Cell) :=
  cols.map (fun p => if p.1 == nm then (p.1, v) else p)

/-- The strict membership check (lines 541-551): with `strict=True`, every
non-`None` value supplied must occur in the source column, else
`ValueError`; with `strict=False` the source raises
`NotImplementedError`. -/
def tcv_strict_check (colVals : List Cell) (values : List (List Cell))
    (strict : Bool) : Except PyErr Unit :=
  if strict then
    if !((values.flatten.filterMap id).all (fun v => colVals.contains (some v))) then
      .error .valueError
    else .ok ()
  else .error .notImplementedError

/-- The catch-all checks (lines 553-559): at most one `[None]` group, and
if present it must be the last group. -/
def tcv_catchall_check (values : List (List Cell)) : Except PyErr Unit :=
  if values.count [none] > 1 then .error .valueError
  else if values.count [none] = 1 ∧ values.getLast? ≠ some [none] then
    .error .valueError
  else .ok ()

/-- Default or supplied new-column names; `set_axis` raises `ValueError`
when the supplied list does not have one name per new column. -/
def tcv_names (column_names : Option (List String))
    (values : List (List Cell)) : Except PyErr (List String) :=
  match column_names with
  | none => .ok ((List.range values.length).map (fun i => "column_" ++ toString i))
  | some ns =>
    if ns.length = values.length then .ok ns else .error .valueError

/-- The allocation loop `for i, sublist in enumerate(values)` (lines
574-594), carrying the would-be Python local `other_columns` (assigned
only by the catch-all branch).  The normal branch keeps a cell where it
belongs to the sublist (`.where(.isin(sublist))`); the catch-all branch
keeps a cell where every *other* current new column is missing at that
position (`.where(df_new_columns[other_columns].isna().all(axis=1))`). -/
def allocValues (names : List String) :
    List (String × List Cell) → Option (List String) → List (Nat × List Cell) →
      List (String × List Cell) × Option (List String)
  | cols, oc, [] => (cols, oc)
  | cols, oc, (i, sublist) :: rest =>
    if sublist = [none] then
      let nm := names.getD i ""
      let others := cols.filter (fun p => !(p.1 == nm))
      let newv := (getColOf cols nm).enum.map
        (fun jc => if others.all (fun p => (p.2.getD jc.1 none).isNone)
          then jc.2 else none)
      allocValues names (updateCol cols nm newv)
        (some (names.filter (fun c => !(c == nm)))) rest
    else
      let nm := names.getD i ""
      let newv := (getColOf cols nm).map
        (fun c => if sublist.contains c then c else none)
      allocValues names (updateCol cols nm newv) oc rest

/-- Model of `for i, value in enumerate(missing_values): if value is not None:
...fillna(value)` (lines 600-603); indexing `column_names[i]` raises
`IndexError` when missing_values is longer than the new-column list. -/
def applyMissing (names : List String) :
    List (String × List Cell) → List (Nat × Cell) →
      Except PyErr (List (String × List Cell))
  | cols, [] => .ok cols
  | cols, (i, v) :: rest =>
    match v with
    | none => applyMissing names cols rest
    | some s =>
      match names[i]? with
      | none => .error .indexError
      | some nm =>
        applyMissing names
          (updateCol cols nm ((getColOf cols nm).map (fun c => c.or (some s))))
          rest

/-- Model of `turn_column_into_columns_values(df, column, values, missing_values,
column_names, strict)` over a flat-index frame: after the checks, the
source duplicates the column once per group, allocates values per group,
forward-fills the non-catch-all columns (`other_columns`, the loop
variable left over from the last — catch-all — iteration; unbound, hence
`UnboundLocalError`, when no group is `[None]`), applies the
missing-value fallbacks (`TypeError` when `missing_values` was left
`None`), and splices the new columns in place of the original one. -/
def turn_column_into_columns_values (df : DF) (column : String)
    (values : List (List Cell)) (missing_values : Option (List Cell))
    (column_names : Option (List String)) (strict : Bool) :
    Except PyErr DF := do
  let column_position ← (match df.getLoc? column with
    | some i => Except.ok i
    | none => Except.error PyErr.keyError)
  let colVals := getColOf df.cols column
  tcv_strict_check colVals values strict
  tcv_catchall_check values
  let names ← tcv_names column_names values
  if values.isEmpty then Except.error PyErr.valueError else pure ()
  let st := allocValues names (names.map (fun nm => (nm, colVals))) none values.enum
  let ocNames ← (match st.2 with
    | some l => Except.ok l
    | none => Except.error PyErr.nameError)
  let filled := st.1.map (fun p => if p.1 ∈ ocNames then (p.1, ffill p.2) else p)
  let mvs ← (match missing_values with
    | some l => Except.ok l
    | none => Except.error PyErr.typeError)
  let finalCols ← applyMissing names filled mvs.enum
  let remaining := df.cols.eraseIdx column_position
  pure (DF.mk (remaining.take column_position ++ finalCols
    ++ remaining.drop column_position))

/-- Claim C2 counterexample: for the described call (source column
`["A","B","C","D"]`, `values=[["A","B"],[None]]`, with
`missing_values=[None,None]` supplied — the only way the call returns at
all, see C10), the first new column comes out `["A","B","B","B"]`: the
final `ffill` forward-fills the non-catch-all columns ("with these values
ffilled to subsequent rows", per the source's docstring).  It is not
`["A","B",missing,missing]` as the claim states. -/
theorem turn_column_values_counterexample :
    (turn_column_into_columns_values
        (DF.mk [("col", [some "A", some "B", some "C", some "D"])]) "col"
        [[some "A", some "B"], [none]] (some [none, none]) none true).map
      (fun d => getColOf d.cols "column_0")
      = .ok [some "A", some "B", some "B", some "B"] ∧
    ([some "A", some "B", some "B", some "B"] : List Cell)
      ≠ [some "A", some "B", none, none] := by
  constructor
  · rfl
  · decide

/-- Claim C2 (amended): the call produces two new columns in place of the
source column; the catch-all holds `[missing,missing,"C","D"]` — exactly
the positions at which all other new columns were missing when it was
computed — while the first column holds `["A","B","B","B"]`, its values
forward-filled to the subsequent rows by the final ffill of the
non-catch-all columns. -/
theorem turn_column_values_amended :
    turn_column_into_columns_values
        (DF.mk [("col", [some "A", some "B", some "C", some "D"])]) "col"
        [[some "A", some "B"], [none]] (some [none, none]) none true
      = .ok (DF.mk
          [("column_0", [some "A", some "B", some "B", some "B"]),
           ("column_1", [none, none, some "C", some "D"])]) := by
  rfl

theorem tcv_strict_check_true (colVals : List Cell) (values : List (List Cell)) :
    tcv_strict_check colVals values true = .ok () ∨
    tcv_strict_check colVals values true = .error .valueError := by
  cases h : (values.flatten.filterMap id).all (fun v => colVals.contains (some v)) with
  | false =>
    right
    simp only [tcv_strict_check, h, Bool.not_false, if_true]
  | true =>
    left
    simp only [tcv_strict_check, h, Bool.not_true, Bool.false_eq_true, if_false,
      if_true]

theorem tcv_catchall_check_err (values : List (List Cell))
    (hbad : values.count [none] > 1 ∨
      (values.count [none] = 1 ∧ values.getLast? ≠ some [none])) :
    tcv_catchall_check values = .error .valueError := by
  rw [tcv_catchall_check]
  rcases hbad with h | h
  · rw [if_pos h]
  · rw [if_neg (by omega), if_pos h]

/-- Claim C8 counterexample: with `strict=False`, a misplaced catch-all
(`values=[[None],["A","B"]]`) raises `NotImplementedError` — the
`elif not strict` branch fires before the catch-all checks — not
`ValueError`. -/
theorem catchall_validation_counterexample :
    turn_column_into_columns_values (DF.mk [("col", [some "A", some "B"])]) "col"
        [[none], [some "A", some "B"]] none none false
      = .error .notImplementedError ∧
    PyErr.notImplementedError ≠ PyErr.valueError := by
  constructor
  · rfl
  · decide

/-- Claim C8 (amended): in strict mode (the default), a values list with
more than one catch-all group `[None]`, or with exactly one that is not
last, makes the call fail with `ValueError` (either the catch-all check's
own, or — when some supplied value is also absent from the column — the
strict check's, which runs first); the source has not touched the input
frame at that point.  With `strict=False` the call instead fails with
`NotImplementedError` before the catch-all checks. -/
theorem catchall_validation_amended (df : DF) (column : String)
    (values : List (List Cell)) (mv : Option (List Cell))
    (cn : Option (List String)) (p : Nat)
    (hloc : df.getLoc? column = some p)
    (hbad : values.count [none] > 1 ∨
      (values.count [none] = 1 ∧ values.getLast? ≠ some [none])) :
    turn_column_into_columns_values df column values mv cn true
      = .error .valueError := by
  rcases tcv_strict_check_true (getColOf df.cols column) values with hs | hs
  · rw [turn_column_into_columns_values.eq_def]
    simp only [hloc, except_ok_bind, hs, tcv_catchall_check_err values hbad,
      except_error_bind]
  · rw [turn_column_into_columns_values.eq_def]
    simp only [hloc, except_ok_bind, hs, except_error_bind]

/-- Witness for the amended C8 at a concrete input (catch-all not last,
strict default). -/
theorem catchall_validation_amended_witness :
    turn_column_into_columns_values (DF.mk [("col", [some "A"])]) "col"
        [[none], [some "A"]] none none true = .error .valueError :=
  catchall_validation_amended (DF.mk [("col", [some "A"])]) "col"
    [[none], [some "A"]] none none 0 (by rfl) (Or.inr (by decide))

theorem allocValues_oc_ne_none (names : List String) :
    ∀ (l : List (Nat × List Cell)) (cols : List (String × List Cell))
      (oc : Option (List String)),
      ([none] ∈ l.map Prod.snd ∨ oc ≠ none) →
      (allocValues names cols oc l).2 ≠ none := by
  intro l
  induction l with
  | nil =>
    intro cols oc h
    rcases h with h | h
    · simp at h
    · simpa [allocValues] using h
  | cons x rest ih =>
    obtain ⟨i, sub⟩ := x
    intro cols oc h
    by_cases hsub : sub = [none]
    · simp only [allocValues, if_pos hsub]
      apply ih
      right
      simp
    · simp only [allocValues, if_neg hsub]
      apply ih
      rcases h with h | h
      · left
        simp only [List.map_cons, List.mem_cons] at h
        rcases h with h | h
        · exact absurd h.symm hsub
        · exact h
      · right
        exact h

theorem allocValues_oc_none (names : List String) :
    ∀ (l : List (Nat × List Cell)) (cols : List (String × List Cell)),
      [none] ∉ l.map Prod.snd →
      (allocValues names cols none l).2 = none := by
  intro l
  induction l with
  | nil => intro cols _; rfl
  | cons x rest ih =>
    obtain ⟨i, sub⟩ := x
    intro cols h
    have hsub : ¬ sub = [none] := by
      intro he
      exact h (by simp [he])
    simp only [allocValues, if_neg hsub]
    apply ih
    intro hm
    exact h (by simp [hm])

/-- Claim C10 counterexample: a call that passes every check but supplies
no catch-all group (`values=[["A"]]`) fails with `UnboundLocalError` (a
`NameError`: the loop variable `other_columns` was never assigned when the
forward-fill line reads it) — not with `TypeError` — and it does so
whatever `missing_values` is. -/
theorem missing_values_default_counterexample :
    turn_column_into_columns_values (DF.mk [("col", [some "A"])]) "col"
        [[some "A"]] none none true
      = .error .nameError ∧
    PyErr.nameError ≠ PyErr.typeError := by
  constructor
  · rfl
  · decide

/-- Claim C10 (amended): a call that passes all parameter validation and
supplies a catch-all group `[None]` fails with `TypeError` (iterating
`None`) before returning whenever `missing_values` is left at its default
`None` — so the `Optional` parameter must in fact be supplied; a call with
no catch-all group fails earlier still, with `UnboundLocalError`
(`other_columns` unbound at the forward-fill line), regardless of
`missing_values`. -/
theorem missing_values_default_amended (df : DF) (column : String)
    (values : List (List Cell)) (cn : Option (List String))
    (ns : List String) (p : Nat)
    (hloc : df.getLoc? column = some p)
    (hmem : tcv_strict_check (getColOf df.cols column) values true = .ok ())
    (hcnt : tcv_catchall_check values = .ok ())
    (hnames : tcv_names cn values = .ok ns)
    (hne : values ≠ []) :
    ([none] ∈ values →
      turn_column_into_columns_values df column values none cn true
        = .error .typeError) ∧
    ([none] ∉ values → ∀ mv,
      turn_column_into_columns_values df column values mv cn true
        = .error .nameError) := by
  have hemps : values.isEmpty = false := by
    cases values with
    | nil => exact absurd rfl hne
    | cons a as => rfl
  constructor
  · intro hmemv
    have hoc := allocValues_oc_ne_none ns values.enum
      (ns.map (fun nm => (nm, getColOf df.cols column))) none
      (Or.inl (by rw [List.enum_map_snd]; exact hmemv))
    rw [turn_column_into_columns_values.eq_def]
    simp only [hloc, except_ok_bind, hmem, hcnt, hnames, hemps,
      Bool.false_eq_true, if_false, except_pure]
    cases hst : (allocValues ns
        (ns.map (fun nm => (nm, getColOf df.cols column))) none values.enum).2 with
    | none => exact absurd hst hoc
    | some l =>
      simp only [hst, except_ok_bind, except_error_bind]
  · intro hmemv mv
    have hoc := allocValues_oc_none ns values.enum
      (ns.map (fun nm => (nm, getColOf df.cols column)))
      (by rw [List.enum_map_snd]; exact hmemv)
    rw [turn_column_into_columns_values.eq_def]
    simp only [hloc, except_ok_bind, hmem, hcnt, hnames, hemps,
      Bool.false_eq_true, if_false, except_pure, hoc, except_error_bind]

/-- Witness for the amended C10 at a concrete input (catch-all present and
last, `missing_values` left at its default). -/
theorem missing_values_default_amended_witness :
    turn_column_into_columns_values (DF.mk [("col", [some "A"])]) "col"
        [[some "A"], [none]] none none true = .error .typeError :=
  (missing_values_default_amended (DF.mk [("col", [some "A"])]) "col"
    [[some "A"], [none]] none ["column_0", "column_1"] 0 (by rfl) (by rfl)
    (by rfl) (by rfl) (by decide)).1 (by decide)

/-! ## Fuzzy Matcher: `fuzzy_match` (`fuzzy_match.py`, lines 11-108)

Only the matching columns matter to the claims: each frame is a list of
rows carrying the row's index label (a tuple when the frame has a
MultiIndex — the label type is a parameter) and the cell of the match
column.  The 0-100 float similarity scale, and the `clean_strings`
preprocessing, are abstracted into a scorer into a linear order. -/

/-- One row of the matching column of a frame: its index label and the
cell of the match column. -/
structure FRow (κ : Type) where
  key : κ
  val : Option String
deriving DecidableEq, Repr

/-- One fuzzy-match result row: index `(df_left_id, df_right_id)` and
columns `match_string`, `match_score`.  `right_key = none` models the
`NaN` right id of the placeholder row emitted for a matchless left row
when `drop_na=False`. -/
structure MatchRecord (κl κr σ : Type) where
  left_key : κl
  right_key : Option κr
  match_string : Option String
  match_score : Option σ
deriving DecidableEq, Repr

/-- Model of `rapidfuzz.process.extract(x, right_column, limit=..., score_cutoff=...,
processor=...)`: candidates are the non-missing cells of the right match
column scoring at least `score_cutoff`; they come back best-first, at most
`limit` of them, each tagged with its right row's index label.  A missing
query matches nothing. -/
def extract {κ σ : Type} [LinearOrder σ] (scorer : String → String → σ)
    (score_cutoff : σ) (lim : Nat) (q : Option String)
    (rights : List (FRow κ)) : List (String × σ × κ) :=
  match q with
  | none => []
  | some qv =>
    ((rights.filterMap (fun r =>
        r.val.bind (fun rv =>
          if score_cutoff ≤ scorer qv rv then some (rv, scorer qv rv, r.key)
          else none))).insertionSort (fun a b => b.2.1 ≤ a.2.1)).take lim

/-- The records one left row contributes to the output of `fuzzy_match`:
its matches in long form, or — when it has none and `drop_na=False` — a
single placeholder with missing match fields. -/
def matchRecords {κl κr σ : Type} [LinearOrder σ] (scorer : String → String → σ)
    (score_cutoff : σ) (lim : Nat) (drop_na : Bool) (rights : List (FRow κr))
    (l : FRow κl) : List (MatchRecord κl κr σ) :=
  let ms := extract scorer score_cutoff lim l.val rights
  if ms.isEmpty ∧ ¬ drop_na then [MatchRecord.mk l.key none none none]
  else ms.map (fun m => MatchRecord.mk l.key (some m.2.2) (some m.1) (some m.2.1))

/-- Model of `fuzzy_match(df_left, df_right, column_left, column_right,
score_cutoff, limit, clean_strings, drop_na)`, restricted to the matching
columns: one record per (left row, matched right row) pair, rows in left
order. -/
def fuzzy_match {κl κr σ : Type} [LinearOrder σ] (scorer : String → String → σ)
    (score_cutoff : σ) (lim : Nat) (drop_na : Bool)
    (lefts : List (FRow κl)) (rights : List (FRow κr)) :
    List (MatchRecord κl κr σ) :=
  lefts.flatMap (matchRecords scorer score_cutoff lim drop_na rights)

theorem extract_length_le {κ σ : Type} [LinearOrder σ]
    (scorer : String → String → σ) (score_cutoff : σ) (lim : Nat)
    (q : Option String) (rights : List (FRow κ)) :
    (extract scorer score_cutoff lim q rights).length ≤ lim := by
  cases q with
  | none => simp [extract]
  | some qv =>
    rw [extract]
    exact List.length_take_le _ _

theorem map_filterMap_sublist {α β γ : Type} (F : α → Option β) (g : β → γ)
    (g2 : α → γ) (hg : ∀ a b, F a = some b → g b = g2 a) :
    ∀ (l : List α), ((l.filterMap F).map g).Sublist (l.map g2) := by
  intro l
  induction l with
  | nil => simp
  | cons a as ih =>
    rw [List.filterMap_cons]
    cases hFa : F a with
    | none =>
      rw [List.map_cons]
      exact ih.trans (List.sublist_cons_self _ _)
    | some b =>
      rw [List.map_cons, List.map_cons, hg a b hFa]
      exact ih.cons₂ _

theorem extract_keys_subperm {κ σ : Type} [LinearOrder σ]
    (scorer : String → String → σ) (score_cutoff : σ) (lim : Nat)
    (q : Option String) (rights : List (FRow κ)) :
    ((extract scorer score_cutoff lim q rights).map (fun m => m.2.2)).Subperm
      (rights.map FRow.key) := by
  cases q with
  | none => simp [extract]
  | some qv =>
    rw [extract]
    have h1 := List.take_sublist lim
      ((rights.filterMap (fun r =>
        r.val.bind (fun rv =>
          if score_cutoff ≤ scorer qv rv then some (rv, scorer qv rv, r.key)
          else none))).insertionSort (fun a b => b.2.1 ≤ a.2.1))
    have h2 := List.perm_insertionSort (fun a b => b.2.1 ≤ a.2.1)
      (rights.filterMap (fun r =>
        r.val.bind (fun rv =>
          if score_cutoff ≤ scorer qv rv then some (rv, scorer qv rv, r.key)
          else none)))
    have h3 := map_filterMap_sublist
      (fun r : FRow κ =>
        r.val.bind (fun rv =>
          if score_cutoff ≤ scorer qv rv then some (rv, scorer qv rv, r.key)
          else none))
      (fun m => m.2.2) FRow.key
      (by
        intro r m hm
        have hm2 : (r.val.bind (fun rv =>
            if score_cutoff ≤ scorer qv rv then some (rv, scorer qv rv, r.key)
            else none)) = some m := hm
        cases hv : r.val with
        | none => rw [hv] at hm2; simp at hm2
        | some rv =>
          rw [hv] at hm2
          simp only [Option.some_bind] at hm2
          by_cases hc : score_cutoff ≤ scorer qv rv
          · rw [if_pos hc] at hm2
            injection hm2 with hm3
            rw [← hm3]
          · rw [if_neg hc] at hm2
            simp at hm2)
      rights
    exact (((h1.map (fun m => m.2.2)).subperm).trans
      ((h2.map (fun m => m.2.2)).subperm)).trans h3.subperm

theorem matchRecords_left {κl κr σ : Type} [LinearOrder σ]
    (scorer : String → String → σ) (score_cutoff : σ) (lim : Nat)
    (drop_na : Bool) (rights : List (FRow κr)) (l : FRow κl) :
    ∀ rec ∈ matchRecords scorer score_cutoff lim drop_na rights l,
      rec.left_key = l.key := by
  intro rec hrec
  rw [matchRecords] at hrec
  by_cases hc : (extract scorer score_cutoff lim l.val rights).isEmpty ∧ ¬ drop_na
  · rw [if_pos hc] at hrec
    rcases List.mem_singleton.mp hrec with rfl
    rfl
  · rw [if_neg hc] at hrec
    obtain ⟨m, _, rfl⟩ := List.mem_map.mp hrec
    rfl

theorem matchRecords_length {κl κr σ : Type} [LinearOrder σ]
    (scorer : String → String → σ) (score_cutoff : σ) (lim : Nat)
    (drop_na : Bool) (rights : List (FRow κr)) (l : FRow κl) (hlim : 1 ≤ lim) :
    (matchRecords scorer score_cutoff lim drop_na rights l).length ≤ lim := by
  rw [matchRecords]
  by_cases hc : (extract scorer score_cutoff lim l.val rights).isEmpty ∧ ¬ drop_na
  · rw [if_pos hc]
    simpa using hlim
  · rw [if_neg hc, List.length_map]
    exact extract_length_le scorer score_cutoff lim l.val rights

theorem matchRecords_pairs_nodup {κl κr σ : Type} [DecidableEq κr] [LinearOrder σ]
    (scorer : String → String → σ) (score_cutoff : σ) (lim : Nat)
    (drop_na : Bool) (rights : List (FRow κr)) (l : FRow κl)
    (hr : (rights.map FRow.key).Nodup) :
    ((matchRecords scorer score_cutoff lim drop_na rights l).map
      (fun rec => (rec.left_key, rec.right_key))).Nodup := by
  rw [matchRecords]
  by_cases hc : (extract scorer score_cutoff lim l.val rights).isEmpty ∧ ¬ drop_na
  · rw [if_pos hc]
    simp
  · rw [if_neg hc, List.map_map]
    have hkeys : ((extract scorer score_cutoff lim l.val rights).map
        (fun m => m.2.2)).Nodup := by
      obtain ⟨l2, hperm, hsub⟩ :=
        extract_keys_subperm scorer score_cutoff lim l.val rights
      exact (hperm.nodup_iff).mp (List.Nodup.sublist hsub hr)
    have heq : ((fun rec : MatchRecord κl κr σ => (rec.left_key, rec.right_key))
          ∘ (fun m : String × σ × κr =>
              MatchRecord.mk l.key (some m.2.2) (some m.1) (some m.2.1)))
        = (fun k : κr => (l.key, some k)) ∘ (fun m : String × σ × κr => m.2.2) := by
      funext m
      rfl
    rw [heq, ← List.map_map]
    apply List.Nodup.map _ hkeys
    intro k1 k2 hk
    simpa using hk

theorem fuzzy_match_mem_left {κl κr σ : Type} [LinearOrder σ]
    (scorer : String → String → σ) (score_cutoff : σ) (lim : Nat)
    (drop_na : Bool) (lefts : List (FRow κl)) (rights : List (FRow κr)) :
    ∀ rec ∈ fuzzy_match scorer score_cutoff lim drop_na lefts rights,
      rec.left_key ∈ lefts.map FRow.key := by
  intro rec hrec
  obtain ⟨l, hl, hrecl⟩ := List.mem_flatMap.mp hrec
  rw [matchRecords_left scorer score_cutoff lim drop_na rights l rec hrecl]
  exact List.mem_map.mpr ⟨l, hl, rfl⟩

/-- Claim C3 counterexample: with a right table whose two rows share the
index label 0 (pandas index labels need not be unique), both rows match
the single left row, and the pair `(left_key, right_key) = (0, 0)` occurs
twice in one run. -/
theorem fuzzy_match_pair_unique_counterexample :
    ¬ ((fuzzy_match (fun _ _ => (100 : Nat)) 0 2 true
          [FRow.mk 0 (some "a")]
          [FRow.mk 0 (some "a"), FRow.mk 0 (some "a")]).map
        (fun r => (r.left_key, r.right_key))).Nodup := by
  decide

/-- Claim C3 (amended): for every pair of input tables, scorer, cutoff and
limit `L ≥ 1`, each left row contributes at most `L` records to the output
of `fuzzy_match`; and provided both tables carry unique row identifiers
(as the source's own comment assumes: "this will be a unique index, as
long as df_left and df_right have unique indexes"), each
`(left_key, right_key)` pair occurs at most once within one matching
run. -/
theorem fuzzy_match_invariants {κl κr σ : Type} [DecidableEq κl]
    [DecidableEq κr] [LinearOrder σ] (scorer : String → String → σ)
    (score_cutoff : σ) (lim : Nat) (drop_na : Bool) (lefts : List (FRow κl))
    (rights : List (FRow κr)) (hlim : 1 ≤ lim)
    (hl : (lefts.map FRow.key).Nodup) (hr : (rights.map FRow.key).Nodup) :
    (∀ k, ((fuzzy_match scorer score_cutoff lim drop_na lefts rights).filter
        (fun r => decide (r.left_key = k))).length ≤ lim) ∧
    ((fuzzy_match scorer score_cutoff lim drop_na lefts rights).map
        (fun r => (r.left_key, r.right_key))).Nodup := by
  induction lefts with
  | nil => exact ⟨fun k => by simp [fuzzy_match], by simp [fuzzy_match]⟩
  | cons l ls ih =>
    rw [List.map_cons, List.nodup_cons] at hl
    obtain ⟨hlk, hls⟩ := hl
    obtain ⟨ih1, ih2⟩ := ih hls
    constructor
    · intro k
      rw [fuzzy_match, List.flatMap_cons, List.filter_append, List.length_append]
      by_cases hk : k = l.key
      · have hrest : ((ls.flatMap
            (matchRecords scorer score_cutoff lim drop_na rights)).filter
              (fun r => decide (r.left_key = k))).length = 0 := by
          rw [List.length_eq_zero]
          rw [List.filter_eq_nil_iff]
          intro rec hrec
          have := fuzzy_match_mem_left scorer score_cutoff lim drop_na ls rights
            rec hrec
          simp only [decide_eq_true_eq]
          intro he
          rw [he, hk] at this
          exact hlk this
        rw [hrest, Nat.add_zero]
        exact Nat.le_trans (List.length_filter_le _ _)
          (matchRecords_length scorer score_cutoff lim drop_na rights l hlim)
      · have hhead : ((matchRecords scorer score_cutoff lim drop_na rights l).filter
            (fun r => decide (r.left_key = k))).length = 0 := by
          rw [List.length_eq_zero, List.filter_eq_nil_iff]
          intro rec hrec
          have := matchRecords_left scorer score_cutoff lim drop_na rights l rec hrec
          simp only [decide_eq_true_eq]
          intro he
          rw [he] at this
          exact hk this
        rw [hhead, Nat.zero_add]
        exact ih1 k
    · rw [fuzzy_match, List.flatMap_cons, List.map_append, List.nodup_append]
      refine ⟨matchRecords_pairs_nodup scorer score_cutoff lim drop_na rights l hr,
        ih2, ?_⟩
      intro x hx hy
      obtain ⟨rec1, hrec1, hx1⟩ := List.mem_map.mp hx
      obtain ⟨rec2, hrec2, hx2⟩ := List.mem_map.mp hy
      have h1 := matchRecords_left scorer score_cutoff lim drop_na rights l
        rec1 hrec1
      have h2 := fuzzy_match_mem_left scorer score_cutoff lim drop_na ls rights
        rec2 hrec2
      have hfst : rec1.left_key = rec2.left_key :=
        congrArg Prod.fst (hx1.trans hx2.symm)
      rw [h1] at hfst
      rw [← hfst] at h2
      exact hlk h2

/-- Witness for the amended C3 at a concrete input with unique indexes. -/
theorem fuzzy_match_invariants_witness :
    ((fuzzy_match (fun _ _ => (100 : Nat)) 0 2 true
        [FRow.mk 0 (some "a")]
        [FRow.mk 0 (some "a"), FRow.mk 1 (some "a")]).map
      (fun r => (r.left_key, r.right_key))).Nodup :=
  (fuzzy_match_invariants (fun _ _ => (100 : Nat)) 0 2 true
    [FRow.mk 0 (some "a")] [FRow.mk 0 (some "a"), FRow.mk 1 (some "a")]
    (by omega) (by decide) (by decide)).2

end DsUtils
